import Mathlib

/-!
Verification of the densitty plotting library (binning, smoothing, axis
tick/label selection) against its natural-language specification.

Modelling conventions:
* Python `Decimal` / `Fraction` / numeric values are modelled as exact
  rationals (`ℚ`).  The specification (sections 3 and 9) mandates exact
  decimal/rational semantics for all edge/step computations, so the
  bounded-precision rounding of `decimal`'s default context and binary
  floating point conversions are modelled as exact arithmetic.
* Python exceptions are modelled with `Except` and an explicit exception
  type `PyExc` mirroring the classes of Python's builtin exception
  hierarchy that matter here.
* Stateful loops are modelled as folds; mutable grids are `List (List _)`
  values updated functionally.
-/

namespace Densitty

/-- Python builtin exception classes relevant to this development.
In Python's builtin exception hierarchy, `ZeroDivisionError`,
`OverflowError` and `FloatingPointError` are the subclasses of
`ArithmeticError`; `ValueError` derives directly from `Exception` and is
not in the `ArithmeticError` class. -/
inductive PyExc where
  | valueError
  | arithmeticError
  | zeroDivisionError
  | overflowError
  | floatingPointError
deriving DecidableEq, Repr

/-- Whether an exception is in Python's `ArithmeticError` class
(an instance of `ArithmeticError` or one of its subclasses). -/
def PyExc.isArithmeticErrorClass : PyExc → Bool
  | .arithmeticError => true
  | .zeroDivisionError => true
  | .overflowError => true
  | .floatingPointError => true
  | .valueError => false

/-- Python's builtin `round` on an exact value: round half to even
(banker's rounding), as used on the float quotients in the source. -/
def pyRound (q : ℚ) : ℤ :=
  let f : ℤ := ⌊q⌋
  let r : ℚ := q - f
  if r < 1/2 then f
  else if 1/2 < r then f + 1
  else if Even f then f else f + 1

namespace util

/-- From util.py: `ValueRange = namedtuple("ValueRange", ["min", "max"])`. -/
structure ValueRange where
  min : ℚ
  max : ℚ
deriving DecidableEq, Repr

/-- From util.py `clamp`: returns the value if within min/max range, else
the range boundary (`max(min_x, min(max_x, x))`), at the integer-index
uses in the binning code. -/
def clamp (x min_x max_x : ℤ) : ℤ := Max.max min_x (Min.min max_x x)

/-- From util.py `pick_step_size`.  The float computation
`frac = 10**(log10 nominal - floor (log10 nominal))` is modelled exactly
as `nominal / 10 ^ (Int.log 10 nominal)`; `math.log10` of a non-positive
argument raises `ValueError`, modelled as the error branch.  Python's
banker's `round` in the leading-digit-5 branch is `pyRound`. -/
def pick_step_size (value_range : ValueRange) (num_steps_hint : ℤ)
    (min_steps_per_label : ℤ) : Except PyExc (ℚ × ℚ) :=
  let hint : ℤ := Max.max 1 num_steps_hint
  let nominal_step : ℚ := (value_range.max - value_range.min) / hint
  if nominal_step ≤ 0 then .error .valueError
  else
    let log_decade : ℤ := Int.log 10 nominal_step
    let decade : ℚ := 10 ^ log_decade
    let frac : ℚ := nominal_step / decade
    let steps_per_label : ℤ :=
      if min_steps_per_label ≤ 2 then min_steps_per_label
      else if min_steps_per_label ≤ 5 then 5
      else Max.max min_steps_per_label 10
    if frac < 11/10 then
      .ok (decade, decade * steps_per_label)
    else if frac < 11/5 then
      let spl := if steps_per_label = 2 then 5 else steps_per_label
      .ok (2 * decade, (2 * decade) * spl)
    else if frac < 11/2 then
      let spl := if steps_per_label = 5 then
          Max.max (pyRound ((min_steps_per_label : ℚ) / 2) * 2) 6
        else steps_per_label
      .ok (5 * decade, (5 * decade) * spl)
    else
      .ok (10 * decade, (10 * decade) * steps_per_label)

end util

namespace binning

/-- Python's `bisect.bisect_right(a, x)` on a list sorted in ascending
order returns the insertion point after any existing entries equal to
`x`, i.e. the number of elements that are `≤ x`. -/
def bisect_right (a : List ℚ) (x : ℚ) : ℕ :=
  a.countP (fun e => decide (e ≤ x))

/-- Index of the cell a value falls in: `bisect_right(edges, v) - 1`
from the body of `bin_by_edges`. -/
def bin_idx (edges : List ℚ) (v : ℚ) : ℤ :=
  (bisect_right edges v : ℤ) - 1

/-- Apply `f` to the element at index `n`, leaving the list unchanged
when `n` is out of range. -/
def setAt (l : List α) (n : ℕ) (f : α → α) : List α :=
  match l, n with
  | [], _ => []
  | a :: as, 0 => f a :: as
  | a :: as, n + 1 => a :: setAt as n f

/-- Functional update of one grid cell: `out[r][c] = f(out[r][c])`.
Out-of-range indices leave the grid unchanged (the Python code only
indexes inside the allocated grid on the executions covered by the
theorems below). -/
def modifyCell (g : List (List α)) (r c : ℕ) (f : α → α) : List (List α) :=
  setAt g r (fun row => setAt row c f)

/-- Read one grid cell with an explicit default. -/
def getCell (g : List (List α)) (r c : ℕ) (d : α) : α :=
  (g.getD r []).getD c d

/-- Number of bins implied by an edge sequence: `len(edges) - 1`,
computed in `ℤ` exactly as Python does (it is `-1` for an empty list). -/
def num_bins (edges : List ℚ) : ℤ := (edges.length : ℤ) - 1

/-- One iteration of the point loop of binning.py `bin_by_edges`. -/
def bin_step (x_edges y_edges : List ℚ) (drop_outside : Bool)
    (out : List (List ℕ)) (p : ℚ × ℚ) : List (List ℕ) :=
  let x_idx : ℤ := bin_idx x_edges p.1
  let y_idx : ℤ := bin_idx y_edges p.2
  if drop_outside then
    if 0 ≤ x_idx ∧ x_idx < num_bins x_edges ∧ 0 ≤ y_idx ∧ y_idx < num_bins y_edges then
      modifyCell out y_idx.toNat x_idx.toNat (· + 1)
    else out
  else
    modifyCell out (util.clamp y_idx 0 (num_bins y_edges - 1)).toNat
      (util.clamp x_idx 0 (num_bins x_edges - 1)).toNat (· + 1)

/-- From binning.py `bin_by_edges`: bin points into a 2-D histogram given
bin edges.  The grid allocation
`[[0]*num_x_bins for _ in range(num_y_bins)]` gives an empty grid when
the bin counts are non-positive. -/
def bin_by_edges (points : List (ℚ × ℚ)) (x_edges y_edges : List ℚ)
    (drop_outside : Bool) : List (List ℕ) :=
  let out0 : List (List ℕ) :=
    List.replicate (num_bins y_edges).toNat
      (List.replicate (num_bins x_edges).toNat 0)
  points.foldl (bin_step x_edges y_edges drop_outside) out0

/-- Total count held by a histogram grid. -/
def gridSum (g : List (List ℕ)) : ℕ :=
  (g.map List.sum).sum

/-- A point is kept (not dropped) by `bin_by_edges`: either
`drop_outside` is false, or its bin indices are in range. -/
def keptB (x_edges y_edges : List ℚ) (drop_outside : Bool) (p : ℚ × ℚ) : Bool :=
  !drop_outside ||
    (decide (0 ≤ bin_idx x_edges p.1) &&
     decide (bin_idx x_edges p.1 < num_bins x_edges) &&
     decide (0 ≤ bin_idx y_edges p.2) &&
     decide (bin_idx y_edges p.2 < num_bins y_edges))

/-- Python's builtin `min` over a non-empty sequence (`calc_value_range`
only calls it after the emptiness guard; the `[]` case is unreachable
junk). -/
def listMin : List ℚ → ℚ
  | [] => 0
  | v :: vs => vs.foldl Min.min v

/-- Python's builtin `max` over a non-empty sequence. -/
def listMax : List ℚ → ℚ
  | [] => 0
  | v :: vs => vs.foldl Max.max v

/-- From binning.py `calc_value_range`.  `make_value_range` and
`make_decimal` are imported from util but are absent from src; modelled
from the spec as the exact identity conversions to decimal values
(section 3 mandates exact decimal semantics).  `math.ulp` is a binary
floating-point operation; it is modelled as a caller-supplied function
`ulpf` (for every finite float, `math.ulp` returns a strictly positive
value, which the theorem takes as a hypothesis). -/
def calc_value_range (ulpf : ℚ → ℚ) (values : List ℚ) : util.ValueRange :=
  match values with
  | [] => ⟨0, 1⟩
  | v :: vs =>
    let min_value := listMin (v :: vs)
    let max_value := listMax (v :: vs)
    let range_top := max_value + ulpf max_value
    ⟨min_value, range_top⟩

/-- From binning.py `align_value_range`: shift the provided `ValueRange`
up or down to the specified alignment, choosing whichever direction
shifts it less. -/
def align_value_range (vr : util.ValueRange) (alignment : ℚ) :
    util.ValueRange :=
  let width := vr.max - vr.min
  let aligned_min := ⌊vr.min / alignment⌋ * alignment
  let aligned_max := ⌈vr.max / alignment⌉ * alignment
  let shift_for_min := vr.min - aligned_min
  let shift_for_max := aligned_max - vr.max
  if shift_for_min < shift_for_max then ⟨aligned_min, aligned_min + width⟩
  else ⟨aligned_max - width, aligned_max⟩

end binning

namespace axis

/-- Modelled from the spec: `util.sfrexp10` is imported and called by
axis.py but is absent from src.  Spec 4.1: decompose a positive value as
`(sign, mantissa, exponent10)` with
`value = sign * mantissa * 10 ^ exponent10`; the call-site contract
comment (axis.py line 34) pins the mantissa range to
`0.1 <= frac < 1.0`.  Only positive inputs reach it (the caller raises
first otherwise); non-positive inputs get junk values. -/
def sfrexp10 (v : ℚ) : ℤ × ℚ × ℤ :=
  let exp : ℤ := Int.log 10 v + 1
  (1, v / 10 ^ exp, exp)

/-- From axis.py `pick_step_size`: round a positive lower bound up to a
nice value whose leading digit is 2, 5 or 1.  The guard raises
`ValueError` on non-positive input.  `Decimal((0, (2,), exp - 1))` is
the value `2 * 10 ^ (exp - 1)`; the `out.quantize(1)` branch only
changes the printed precision of the `Decimal`, not its numeric value,
so it is the identity here. -/
def pick_step_size (lower_bound : ℚ) : Except PyExc ℚ :=
  if lower_bound ≤ 0 then .error .valueError
  else
    let fe := sfrexp10 lower_bound
    let frac := fe.2.1
    let exp := fe.2.2
    if frac ≤ 2/10 then .ok (2 * 10 ^ (exp - 1))
    else if frac ≤ 5/10 then .ok (5 * 10 ^ (exp - 1))
    else .ok (10 ^ exp)

/-- Modelled from the spec: `util.sanitize_decimals` is imported by
axis.py but absent from src.  Spec 4.1: a canonicalization that strips
redundant trailing zero precision from decimal values before textual
formatting — value-preserving, hence the identity on exact rationals. -/
def sanitize_decimals (positions : List ℚ) : List ℚ := positions

/-- From axis.py `positions_to_labels`: a label mapping where the ticked
positions get an empty label and the sanitized printed positions get a
formatted label (Python: `tick_dict | printed_dict`).  The Python format
string is modelled as an opaque formatting function `fmt`.  The dict is
modelled as an association list: ticks that are overridden by a printed
position are filtered out; duplicate sanitized keys would collapse in
the Python dict but carry identical label strings, so label widths are
unaffected. -/
def positions_to_labels (printed_positions : List ℚ)
    (ticked_positions : List ℚ) (fmt : ℚ → String) : List (ℚ × String) :=
  let printed := (sanitize_decimals printed_positions).map
    (fun p => (p, fmt p))
  let ticks := (ticked_positions.filter
    (fun p => decide (p ∉ sanitize_decimals printed_positions))).map
    (fun p => (p, ""))
  ticks ++ printed

/-- Python's builtin `max` over a sequence of naturals; raises
`ValueError` on an empty sequence. -/
def pyMaxNat : List ℕ → Except PyExc ℕ
  | [] => .error .valueError
  | x :: xs => .ok (xs.foldl Max.max x)

/-- Count of trailing zero decimal digits of a value: how many times it
can be divided by 10 and stay an integer (0 for non-integers and 0).
The fuel bound 64 is far beyond any value the axis code produces. -/
def tz10 : ℕ → ℚ → ℕ
  | 0, _ => 0
  | fuel + 1, q =>
    if (q / 10).den = 1 ∧ q ≠ 0 then tz10 fuel (q / 10) + 1 else 0

/-- Modelled from the spec: `util.roundness_ordered` is imported by
axis.py but absent from src.  Spec 4.3: candidate subsets are evaluated
in decreasing order of roundness (more trailing zero decimal digits is
rounder).  Ordered here by the roundness of the subset head; the
claims proved below do not depend on the particular order, only on the
output being a permutation of candidate subsets that
`find_fitting_subset` then width-checks one by one. -/
def roundness_ordered (subsets : List (List ℚ)) : List (List ℚ) :=
  subsets.insertionSort
    (fun s t => tz10 64 (t.headD 0) ≤ tz10 64 (s.headD 0))

/-- The candidate loop of axis.py `find_fitting_subset`: accept the
first subset immediately when printed widths do not matter, otherwise
accept the first subset whose maximum printed label width fits in
`ticks_per_bin * 2 - 2`; `tuple()` when none fits.  Python's `max` over
the width generator raises `ValueError` when a subset is empty. -/
def find_fitting_subset_loop (ticks_per_bin : ℚ) (accomodate_values : Bool)
    (fmt : ℚ → String) : List (List ℚ) → Except PyExc (List ℚ)
  | [] => .ok []
  | s :: rest =>
    if accomodate_values = false then .ok s
    else
      match pyMaxNat ((positions_to_labels s [] fmt).map
          (fun kv => kv.2.length)) with
      | .error e => .error e
      | .ok m =>
        if (m : ℚ) ≤ ticks_per_bin * 2 - 2 then .ok s
        else find_fitting_subset_loop ticks_per_bin accomodate_values fmt rest

/-- From axis.py `find_fitting_subset`: find the roundest label subset
that fits within the space constraints. -/
def find_fitting_subset (position_subsets : List (List ℚ))
    (ticks_per_bin : ℚ) (accomodate_values : Bool) (fmt : ℚ → String) :
    Except PyExc (List ℚ) :=
  find_fitting_subset_loop ticks_per_bin accomodate_values fmt
    (roundness_ordered position_subsets)

end axis

namespace smoothing

/-- A smoothing kernel: the weight function together with its declared
effective (half-)widths — the `widths` attribute that smoothing.py
probes with `"widths" in dir(f)` and that e.g. `triangle` attaches,
modelled as the explicit capability record the spec (section 9)
prescribes for the duck-typed attribute. -/
structure Kernel where
  f : ℚ × ℚ → ℚ
  widths : ℚ × ℚ

/-- From smoothing.py `func_width`: the declared `widths` attribute of
the kernel (the numeric-search fallback for width-less kernels is not
exercised by kernels that carry widths). -/
def func_width (k : Kernel) : ℚ × ℚ := k.widths

/-- Python slice endpoint normalization for `l[a:b]`: negative indices
count from the end (clamped at 0), positive ones are clamped at the
length. -/
def pySliceIdx (n : ℕ) (i : ℤ) : ℕ :=
  if i < 0 then ((n : ℤ) + i).toNat else Min.min i.toNat n

/-- Python's `l[a:b]` for lists. -/
def pySlice (l : List α) (a b : ℤ) : List α :=
  let s := pySliceIdx l.length a
  let e := pySliceIdx l.length b
  (l.drop s).take (e - s)

/-- Python's `enumerate(xs, start)`: pair each element with its counter
starting at `start` (exactly the counter the source uses, even though a
wrapped slice would make it lie — excluded by the in-window
hypotheses). -/
def enumFrom (k : ℤ) : List α → List (ℤ × α)
  | [] => []
  | x :: xs => (k, x) :: enumFrom (k + 1) xs

/-- Python list indexing normalization: a negative index counts from the
end. -/
def pyIdx (n : ℕ) (i : ℤ) : ℤ := if i < 0 then i + (n : ℤ) else i

/-- The statement `out[r][c] += v` of smooth_to_bins.  Indices that
would raise `IndexError` in Python leave the grid unchanged here; the
theorems below only evaluate it on in-range indices, where the two
agree. -/
def addCell (g : List (List ℚ)) (r c : ℤ) (v : ℚ) : List (List ℚ) :=
  binning.setAt g (pyIdx g.length r).toNat
    (fun row => binning.setAt row (pyIdx row.length c).toNat
      (fun w => w + v))

/-- First center (`x_ctr_f[0]`). -/
def center0 (centers : List ℚ) : ℚ := centers.getD 0 0

/-- Center spacing (`x_ctr_f[1] - x_ctr_f[0]`); assumes at least two
evenly spaced centers, as smooth_to_bins does. -/
def delta (centers : List ℚ) : ℚ := centers.getD 1 0 - centers.getD 0 0

/-- Index of the nearest center: `round((v - c0) / delta)` with Python's
banker's rounding. -/
def ctr_index (centers : List ℚ) (v : ℚ) : ℤ :=
  pyRound ((v - center0 centers) / delta centers)

/-- Effective kernel radius as an index delta:
`round(width // delta) + 1`.  The float floor-division produces an
integer-valued float whose `round` is itself, so this is
`floor (width / delta) + 1`. -/
def width_di (w : ℚ) (centers : List ℚ) : ℤ := ⌊w / delta centers⌋ + 1

/-- The body of the point loop of smoothing.py `smooth_to_bins`: visit
only the cells within the kernel's effective radius around the point's
nearest center and accumulate the kernel weight. -/
def smooth_step (kernel : Kernel) (x_centers y_centers : List ℚ)
    (out : List (List ℚ)) (p : ℚ × ℚ) : List (List ℚ) :=
  let x := p.1
  let y := p.2
  let kernel_width_di := width_di (func_width kernel).1 x_centers
  let kernel_height_di := width_di (func_width kernel).2 y_centers
  let ctr_x_i := ctr_index x_centers x
  let start_x_i := ctr_x_i - kernel_width_di
  let end_x_i := ctr_x_i + kernel_width_di + 1
  (enumFrom start_x_i (pySlice x_centers start_x_i end_x_i)).foldl
    (fun out xe =>
      let ctr_y_i := ctr_index y_centers y
      let start_y_i := ctr_y_i - kernel_height_di
      let end_y_i := ctr_y_i + kernel_height_di + 1
      (enumFrom start_y_i (pySlice y_centers start_y_i end_y_i)).foldl
        (fun out ye =>
          addCell out ye.1 xe.1 (kernel.f ((x - xe.2), (y - ye.2)))) out)
    out

/-- From smoothing.py `smooth_to_bins`: smooth points into a 2-D grid
given bin centers, visiting only cells within the kernel's effective
radius per point. -/
def smooth_to_bins (points : List (ℚ × ℚ)) (kernel : Kernel)
    (x_centers y_centers : List ℚ) : List (List ℚ) :=
  let out0 : List (List ℚ) :=
    List.replicate y_centers.length (List.replicate x_centers.length 0)
  points.foldl (smooth_step kernel x_centers y_centers) out0

/-- The reference the claim compares against, stated from the claim's
words: for every point, accumulate
`kernel (x - x_center[i], y - y_center[j])` over every cell `(i, j)` of
the full grid (this is the full-grid accumulation kernel.py
`kernel_edges` performs per kept point). -/
def naive_smooth (points : List (ℚ × ℚ)) (kernel : Kernel)
    (x_centers y_centers : List ℚ) : List (List ℚ) :=
  (List.range y_centers.length).map (fun j =>
    (List.range x_centers.length).map (fun i =>
      (points.map (fun p =>
        kernel.f (p.1 - x_centers.getD i 0, p.2 - y_centers.getD j 0))).sum))

end smoothing

/-!
Theorems.  Everything below this point proves properties of the
definitions above; no further definitions are introduced except inside
theorem statements.
-/

theorem pyRound_near (q : ℚ) : |q - pyRound q| ≤ 1/2 := by
  unfold pyRound
  dsimp only
  have h0 : (0:ℚ) ≤ q - ⌊q⌋ := by
    have := Int.floor_le q
    linarith
  have h1 : q - ⌊q⌋ < 1 := by
    have := Int.lt_floor_add_one q
    push_cast
    linarith
  split_ifs with hlt hgt hev <;> rw [abs_le] <;> constructor <;> push_cast <;> linarith

namespace binning

theorem setAt_length (l : List α) (n : ℕ) (f : α → α) :
    (setAt l n f).length = l.length := by
  induction l generalizing n with
  | nil => rfl
  | cons a as ih =>
    cases n with
    | zero => rfl
    | succ m => simpa [setAt] using ih m

theorem mem_setAt {a : α} {l : List α} {n : ℕ} {f : α → α}
    (h : a ∈ setAt l n f) : a ∈ l ∨ ∃ b, b ∈ l ∧ a = f b := by
  induction l generalizing n with
  | nil => simp [setAt] at h
  | cons x xs ih =>
    cases n with
    | zero =>
      simp only [setAt] at h
      rcases List.mem_cons.mp h with h | h
      · exact Or.inr ⟨x, List.mem_cons_self x xs, h⟩
      · exact Or.inl (List.mem_cons_of_mem _ h)
    | succ m =>
      simp only [setAt] at h
      rcases List.mem_cons.mp h with h | h
      · exact Or.inl (h ▸ List.mem_cons_self x xs)
      · rcases ih h with h' | ⟨b, hb, hab⟩
        · exact Or.inl (List.mem_cons_of_mem _ h')
        · exact Or.inr ⟨b, List.mem_cons_of_mem _ hb, hab⟩

theorem sum_setAt_succ (l : List ℕ) (c : ℕ) (h : c < l.length) :
    (setAt l c (· + 1)).sum = l.sum + 1 := by
  induction l generalizing c with
  | nil => simp at h
  | cons a as ih =>
    cases c with
    | zero => simp [setAt]; omega
    | succ m =>
      have := ih m (by simpa using h)
      simp [setAt, this]
      omega

theorem gridSum_modifyCell (g : List (List ℕ)) (r c nx : ℕ)
    (hr : r < g.length) (hrow : ∀ row ∈ g, row.length = nx) (hc : c < nx) :
    gridSum (modifyCell g r c (· + 1)) = gridSum g + 1 := by
  induction g generalizing r with
  | nil => simp at hr
  | cons row rest ih =>
    cases r with
    | zero =>
      have hlen : c < row.length := by
        rw [hrow row (List.mem_cons_self _ _)]; exact hc
      simp [modifyCell, setAt, gridSum, sum_setAt_succ row c hlen]
      omega
    | succ m =>
      have hm : m < rest.length := by simpa using hr
      have := ih m hm (fun rw hm => hrow rw (List.mem_cons_of_mem _ hm))
      simp only [modifyCell, setAt, gridSum, List.map_cons, List.sum_cons] at this ⊢
      omega

theorem dims_modifyCell (g : List (List ℕ)) (r c ny nx : ℕ)
    (hlen : g.length = ny) (hrow : ∀ row ∈ g, row.length = nx) :
    (modifyCell g r c (· + 1)).length = ny ∧
      ∀ row ∈ modifyCell g r c (· + 1), row.length = nx := by
  constructor
  · rw [modifyCell, setAt_length]; exact hlen
  · intro row hmem
    rcases mem_setAt hmem with h | ⟨b, hb, rfl⟩
    · exact hrow row h
    · rw [setAt_length]; exact hrow b hb

theorem clamp_toNat_lt {x n : ℤ} (hn : 1 ≤ n) :
    (util.clamp x 0 (n - 1)).toNat < n.toNat := by
  unfold util.clamp
  omega

theorem bin_step_false_eq (x_edges y_edges : List ℚ) (g : List (List ℕ))
    (p : ℚ × ℚ) :
    bin_step x_edges y_edges false g p =
      modifyCell g (util.clamp (bin_idx y_edges p.2) 0 (num_bins y_edges - 1)).toNat
        (util.clamp (bin_idx x_edges p.1) 0 (num_bins x_edges - 1)).toNat
        (· + 1) := by
  rfl

theorem bin_step_true_pos (x_edges y_edges : List ℚ) (g : List (List ℕ))
    (p : ℚ × ℚ)
    (hcond : 0 ≤ bin_idx x_edges p.1 ∧ bin_idx x_edges p.1 < num_bins x_edges ∧
      0 ≤ bin_idx y_edges p.2 ∧ bin_idx y_edges p.2 < num_bins y_edges) :
    bin_step x_edges y_edges true g p =
      modifyCell g (bin_idx y_edges p.2).toNat (bin_idx x_edges p.1).toNat
        (· + 1) := by
  unfold bin_step
  simp only [if_pos hcond, if_true]

theorem bin_step_true_neg (x_edges y_edges : List ℚ) (g : List (List ℕ))
    (p : ℚ × ℚ)
    (hcond : ¬(0 ≤ bin_idx x_edges p.1 ∧ bin_idx x_edges p.1 < num_bins x_edges ∧
      0 ≤ bin_idx y_edges p.2 ∧ bin_idx y_edges p.2 < num_bins y_edges)) :
    bin_step x_edges y_edges true g p = g := by
  unfold bin_step
  simp only [if_neg hcond, if_true]

theorem keptB_false (x_edges y_edges : List ℚ) (p : ℚ × ℚ) :
    keptB x_edges y_edges false p = true := by
  unfold keptB
  simp

theorem keptB_true_iff (x_edges y_edges : List ℚ) (p : ℚ × ℚ) :
    keptB x_edges y_edges true p = true ↔
      (0 ≤ bin_idx x_edges p.1 ∧ bin_idx x_edges p.1 < num_bins x_edges ∧
        0 ≤ bin_idx y_edges p.2 ∧ bin_idx y_edges p.2 < num_bins y_edges) := by
  unfold keptB
  simp only [Bool.not_true, Bool.false_or, Bool.and_eq_true, decide_eq_true_eq]
  tauto

theorem getD_setAt (l : List α) (n m : ℕ) (f : α → α) (d : α) :
    (setAt l n f).getD m d =
      if n = m ∧ m < l.length then f (l.getD m d) else l.getD m d := by
  induction l generalizing n m with
  | nil =>
    simp [setAt]
  | cons a as ih =>
    cases n with
    | zero =>
      cases m with
      | zero => simp [setAt]
      | succ k => simp [setAt]
    | succ n' =>
      cases m with
      | zero => simp [setAt]
      | succ k =>
        simp only [setAt, List.getD_cons_succ, List.length_cons, ih n' k]
        by_cases h : n' = k ∧ k < as.length
        · rw [if_pos h, if_pos ⟨by omega, by omega⟩]
        · rw [if_neg h, if_neg (by omega)]

theorem getCell_modifyCell (g : List (List α)) (r c j i : ℕ) (f : α → α)
    (d : α) :
    getCell (modifyCell g r c f) j i d =
      if r = j ∧ j < g.length ∧ c = i ∧ i < (g.getD j []).length then
        f (getCell g j i d)
      else getCell g j i d := by
  unfold getCell modifyCell
  rw [getD_setAt]
  by_cases h1 : r = j ∧ j < g.length
  · rw [if_pos h1, getD_setAt]
    by_cases h2 : c = i ∧ i < (g.getD j []).length
    · rw [if_pos h2, if_pos ⟨h1.1, h1.2, h2.1, h2.2⟩]
    · rw [if_neg h2, if_neg (by tauto)]
  · rw [if_neg h1, if_neg (by tauto)]

theorem getCell_zero_grid (ny nx j i : ℕ) :
    getCell (List.replicate ny (List.replicate nx (0:ℕ))) j i 0 = 0 := by
  unfold getCell
  simp only [List.getD_eq_getElem?_getD, List.getElem?_replicate]
  split_ifs <;> simp

theorem zero_grid_row (ny nx j : ℕ) (hj : j < ny) :
    (List.replicate ny (List.replicate nx (0:ℕ))).getD j [] =
      List.replicate nx 0 := by
  simp [List.getD_eq_getElem?_getD, List.getElem?_replicate, hj]

theorem clamp_bounds {x m : ℤ} (hm : 0 ≤ m) :
    0 ≤ util.clamp x 0 m ∧ util.clamp x 0 m ≤ m := by
  unfold util.clamp
  omega

theorem getD_le_iff_lt_countP (l : List ℚ) (x : ℚ)
    (hs : l.Sorted (· < ·)) :
    ∀ i, i < l.length →
      ((l.getD i 0 ≤ x) ↔ i < l.countP (fun e => decide (e ≤ x))) := by
  induction l with
  | nil => intro i hi; simp at hi
  | cons a as ih =>
    intro i hi
    rcases List.sorted_cons.mp hs with ⟨ha, has⟩
    cases i with
    | zero =>
      simp only [List.getD_cons_zero]
      constructor
      · intro h
        exact List.countP_pos.mpr ⟨a, List.mem_cons_self a as, by simpa using h⟩
      · intro h
        by_contra hax
        have hz : (a :: as).countP (fun e => decide (e ≤ x)) = 0 := by
          apply List.countP_eq_zero.mpr
          intro e he
          simp only [decide_eq_true_eq]
          intro hex
          rcases List.mem_cons.mp he with rfl | he'
          · exact hax hex
          · exact hax (le_trans (le_of_lt (ha e he')) hex)
        omega
    | succ m =>
      have hm : m < as.length := by simpa using hi
      simp only [List.getD_cons_succ, List.countP_cons]
      by_cases hax : a ≤ x
      · rw [decide_eq_true hax, if_pos rfl, ih has m hm]
        omega
      · rw [decide_eq_false hax, if_neg Bool.false_ne_true]
        constructor
        · intro h
          exfalso
          have hmem : as.getD m 0 ∈ as := by
            rw [List.getD_eq_getElem _ _ hm]
            exact List.getElem_mem hm
          exact hax (le_trans (le_of_lt (ha _ hmem)) h)
        · intro h
          exfalso
          have hz : as.countP (fun e => decide (e ≤ x)) = 0 := by
            apply List.countP_eq_zero.mpr
            intro e he
            simp only [decide_eq_true_eq]
            intro hex
            exact hax (le_trans (le_of_lt (ha e he)) hex)
          omega

theorem bin_idx_eq_iff (edges : List ℚ) (x : ℚ)
    (hs : edges.Sorted (· < ·)) (i : ℕ) (hi : i + 1 < edges.length) :
    (edges.getD i 0 ≤ x ∧ x < edges.getD (i + 1) 0) ↔
      bin_idx edges x = (i : ℤ) := by
  unfold bin_idx bisect_right
  have h1 := getD_le_iff_lt_countP edges x hs i (by omega)
  have h2 := getD_le_iff_lt_countP edges x hs (i + 1) hi
  have hle := List.countP_le_length (l := edges) (p := fun e => decide (e ≤ x))
  constructor
  · intro ⟨hl, hr⟩
    have hlt : i < edges.countP (fun e => decide (e ≤ x)) := h1.mp hl
    have hnot : ¬ (i + 1 < edges.countP (fun e => decide (e ≤ x))) := by
      intro hcon
      exact absurd (h2.mpr hcon) (not_le.mpr hr)
    omega
  · intro h
    have hcnt : edges.countP (fun e => decide (e ≤ x)) = i + 1 := by omega
    constructor
    · exact h1.mpr (by omega)
    · by_contra hcon
      push_neg at hcon
      have := h2.mp hcon
      omega

theorem bin_idx_nonneg_iff (edges : List ℚ) (x : ℚ)
    (hs : edges.Sorted (· < ·)) (hlen : 1 ≤ edges.length) :
    0 ≤ bin_idx edges x ↔ edges.getD 0 0 ≤ x := by
  unfold bin_idx bisect_right
  have h0 := getD_le_iff_lt_countP edges x hs 0 (by omega)
  constructor
  · intro h
    exact h0.mpr (by omega)
  · intro h
    have := h0.mp h
    omega

theorem bin_idx_lt_iff (edges : List ℚ) (x : ℚ)
    (hs : edges.Sorted (· < ·)) (hlen : 1 ≤ edges.length) :
    bin_idx edges x < num_bins edges ↔
      x < edges.getD (edges.length - 1) 0 := by
  unfold bin_idx bisect_right num_bins
  have hlast := getD_le_iff_lt_countP edges x hs (edges.length - 1) (by omega)
  have hle := List.countP_le_length (l := edges) (p := fun e => decide (e ≤ x))
  constructor
  · intro h
    by_contra hcon
    push_neg at hcon
    have := hlast.mp hcon
    omega
  · intro h
    by_contra hcon
    push_neg at hcon
    have : edges.length - 1 < edges.countP (fun e => decide (e ≤ x)) := by omega
    exact absurd (hlast.mpr this) (not_le.mpr h)

theorem bin_fold_invariant (x_edges y_edges : List ℚ) (drop_outside : Bool)
    (hx : 1 ≤ num_bins x_edges) (hy : 1 ≤ num_bins y_edges) :
    ∀ (points : List (ℚ × ℚ)) (g : List (List ℕ)),
      g.length = (num_bins y_edges).toNat →
      (∀ row ∈ g, row.length = (num_bins x_edges).toNat) →
      gridSum (points.foldl (bin_step x_edges y_edges drop_outside) g) =
        gridSum g +
          (points.filter (keptB x_edges y_edges drop_outside)).length := by
  intro points
  induction points with
  | nil => intro g _ _; simp
  | cons p ps ih =>
    intro g hlen hrow
    have hstep :
        gridSum (bin_step x_edges y_edges drop_outside g p) =
          gridSum g +
            (if keptB x_edges y_edges drop_outside p then 1 else 0) ∧
        (bin_step x_edges y_edges drop_outside g p).length =
            (num_bins y_edges).toNat ∧
        ∀ row ∈ bin_step x_edges y_edges drop_outside g p,
            row.length = (num_bins x_edges).toNat := by
      cases drop_outside with
      | false =>
        have hyc := clamp_toNat_lt (x := bin_idx y_edges p.2) hy
        have hxc := clamp_toNat_lt (x := bin_idx x_edges p.1) hx
        rw [bin_step_false_eq, keptB_false]
        refine ⟨?_, ?_, ?_⟩
        · rw [gridSum_modifyCell g _ _ (num_bins x_edges).toNat
            (by rw [hlen]; exact hyc) hrow hxc]
          simp
        · exact (dims_modifyCell g _ _ _ _ hlen hrow).1
        · exact (dims_modifyCell g _ _ _ _ hlen hrow).2
      | true =>
        by_cases hcond : 0 ≤ bin_idx x_edges p.1 ∧
            bin_idx x_edges p.1 < num_bins x_edges ∧
            0 ≤ bin_idx y_edges p.2 ∧ bin_idx y_edges p.2 < num_bins y_edges
        · have hkept : keptB x_edges y_edges true p = true :=
            (keptB_true_iff x_edges y_edges p).mpr hcond
          obtain ⟨h1, h2, h3, h4⟩ := hcond
          have hyn : (bin_idx y_edges p.2).toNat < (num_bins y_edges).toNat := by
            omega
          have hxn : (bin_idx x_edges p.1).toNat < (num_bins x_edges).toNat := by
            omega
          rw [bin_step_true_pos x_edges y_edges g p ⟨h1, h2, h3, h4⟩, hkept]
          refine ⟨?_, ?_, ?_⟩
          · rw [gridSum_modifyCell g _ _ (num_bins x_edges).toNat
              (by rw [hlen]; exact hyn) hrow hxn]
            simp
          · exact (dims_modifyCell g _ _ _ _ hlen hrow).1
          · exact (dims_modifyCell g _ _ _ _ hlen hrow).2
        · have hkept : keptB x_edges y_edges true p = false := by
            rw [← Bool.not_eq_true]
            intro hk
            exact hcond ((keptB_true_iff x_edges y_edges p).mp hk)
          rw [bin_step_true_neg x_edges y_edges g p hcond, hkept]
          exact ⟨by simp, hlen, hrow⟩
    have h2 := ih (bin_step x_edges y_edges drop_outside g p) hstep.2.1 hstep.2.2
    rw [List.foldl_cons, h2, hstep.1, List.filter_cons]
    by_cases hk : keptB x_edges y_edges drop_outside p = true
    · simp only [hk, if_true, List.length_cons]
      omega
    · simp only [Bool.not_eq_true] at hk
      simp only [hk, Bool.false_eq_true, if_false]
      omega

end binning

/-- C1: for every point sequence and every pair of valid edge sequences
(each with at least 2 edges), the sum of all cells of the grid returned
by `bin_by_edges` equals the number of points that were not dropped; in
particular, when `drop_outside = false` it equals the total number of
input points. -/
theorem bin_by_edges_sum_counts (points : List (ℚ × ℚ))
    (x_edges y_edges : List ℚ) (drop_outside : Bool)
    (hx : 2 ≤ x_edges.length) (hy : 2 ≤ y_edges.length)
    (hxs : x_edges.Sorted (· < ·)) (hys : y_edges.Sorted (· < ·)) :
    binning.gridSum (binning.bin_by_edges points x_edges y_edges drop_outside) =
      (points.filter (binning.keptB x_edges y_edges drop_outside)).length ∧
    (drop_outside = false →
      binning.gridSum (binning.bin_by_edges points x_edges y_edges drop_outside) =
        points.length) := by
  have hx1 : 1 ≤ binning.num_bins x_edges := by
    unfold binning.num_bins; omega
  have hy1 : 1 ≤ binning.num_bins y_edges := by
    unfold binning.num_bins; omega
  have hinit :
      binning.gridSum
        (List.replicate (binning.num_bins y_edges).toNat
          (List.replicate (binning.num_bins x_edges).toNat 0)) = 0 := by
    simp [binning.gridSum, List.map_replicate, List.sum_replicate]
  have hmain :
      binning.gridSum (binning.bin_by_edges points x_edges y_edges drop_outside) =
        (points.filter (binning.keptB x_edges y_edges drop_outside)).length := by
    unfold binning.bin_by_edges
    rw [binning.bin_fold_invariant x_edges y_edges drop_outside hx1 hy1 points _
      (by simp) (by
        intro row hrow
        rw [List.eq_of_mem_replicate hrow]
        simp), hinit]
    omega
  refine ⟨hmain, ?_⟩
  intro hdrop
  subst hdrop
  rw [hmain]
  have : points.filter (binning.keptB x_edges y_edges false) = points :=
    List.filter_eq_self.mpr (fun p _ => binning.keptB_false x_edges y_edges p)
  rw [this]

/-- Witness for C1 at a concrete input: edges `[0,1]` on both axes, one
point inside and one outside with `drop_outside = true`. -/
theorem bin_by_edges_sum_counts_witness :
    (2 ≤ ([(0:ℚ), 1] : List ℚ).length) ∧
    List.Sorted (· < ·) ([(0:ℚ), 1]) ∧
    (binning.gridSum
        (binning.bin_by_edges [((0:ℚ), (0:ℚ)), (5, 5)] [0, 1] [0, 1] true) =
      ([((0:ℚ), (0:ℚ)), (5, 5)].filter
          (binning.keptB [0, 1] [0, 1] true)).length ∧
      (true = false →
        binning.gridSum
            (binning.bin_by_edges [((0:ℚ), (0:ℚ)), (5, 5)] [0, 1] [0, 1] true) =
          ([((0:ℚ), (0:ℚ)), (5, 5)] : List (ℚ × ℚ)).length)) :=
  ⟨by decide, by decide,
    bin_by_edges_sum_counts [((0:ℚ), (0:ℚ)), (5, 5)] [0, 1] [0, 1] true
      (by decide) (by decide) (by decide) (by decide)⟩

/-- C2: a point `(x, y)` processed by `bin_by_edges` is counted in cell
`(i, j)` exactly when `x_edges[i] ≤ x < x_edges[i+1]` and
`y_edges[j] ≤ y < y_edges[j+1]`; with `drop_outside = true` points
outside the edge span are discarded (no cell receives them), and with
`drop_outside = false` the incremented cell is the clamped-index cell,
which is the exact bin for in-range points and the nearest boundary cell
(index `0` below the range, `num_bins - 1` at or above it) otherwise. -/
theorem bin_by_edges_cell_rule (x_edges y_edges : List ℚ) (x y : ℚ)
    (drop_outside : Bool)
    (hxs : x_edges.Sorted (· < ·)) (hys : y_edges.Sorted (· < ·))
    (i j : ℕ) (hi : i + 1 < x_edges.length) (hj : j + 1 < y_edges.length) :
    (binning.getCell
        (binning.bin_by_edges [(x, y)] x_edges y_edges drop_outside) j i 0 =
      if drop_outside then
        (if x_edges.getD i 0 ≤ x ∧ x < x_edges.getD (i + 1) 0 ∧
            y_edges.getD j 0 ≤ y ∧ y < y_edges.getD (j + 1) 0
         then 1 else 0)
      else
        (if (i : ℤ) = util.clamp (binning.bin_idx x_edges x) 0
              (binning.num_bins x_edges - 1) ∧
            (j : ℤ) = util.clamp (binning.bin_idx y_edges y) 0
              (binning.num_bins y_edges - 1)
         then 1 else 0)) ∧
    ((x_edges.getD i 0 ≤ x ∧ x < x_edges.getD (i + 1) 0) ↔
      binning.bin_idx x_edges x = (i : ℤ)) ∧
    (x < x_edges.getD 0 0 →
      util.clamp (binning.bin_idx x_edges x) 0 (binning.num_bins x_edges - 1) =
        0) ∧
    (x_edges.getD (x_edges.length - 1) 0 ≤ x →
      util.clamp (binning.bin_idx x_edges x) 0 (binning.num_bins x_edges - 1) =
        binning.num_bins x_edges - 1) := by
  have hnx : 1 ≤ binning.num_bins x_edges := by
    unfold binning.num_bins; omega
  have hny : 1 ≤ binning.num_bins y_edges := by
    unfold binning.num_bins; omega
  have hiN : (i : ℤ) < binning.num_bins x_edges := by
    unfold binning.num_bins; omega
  have hjN : (j : ℤ) < binning.num_bins y_edges := by
    unfold binning.num_bins; omega
  have hxiff := binning.bin_idx_eq_iff x_edges x hxs i hi
  have hyiff := binning.bin_idx_eq_iff y_edges y hys j hj
  have hxlow := binning.bin_idx_nonneg_iff x_edges x hxs (by omega)
  have hxhigh := binning.bin_idx_lt_iff x_edges x hxs (by omega)
  have hfold :
      binning.bin_by_edges [(x, y)] x_edges y_edges drop_outside =
        binning.bin_step x_edges y_edges drop_outside
          (List.replicate (binning.num_bins y_edges).toNat
            (List.replicate (binning.num_bins x_edges).toNat 0)) (x, y) := by
    unfold binning.bin_by_edges
    rw [List.foldl_cons, List.foldl_nil]
  have hjlt : j < (binning.num_bins y_edges).toNat := by
    unfold binning.num_bins at *; omega
  have hilt : i < (binning.num_bins x_edges).toNat := by
    unfold binning.num_bins at *; omega
  refine ⟨?_, hxiff, ?_, ?_⟩
  · rw [hfold]
    cases drop_outside with
    | true =>
      by_cases hg : 0 ≤ binning.bin_idx x_edges x ∧
          binning.bin_idx x_edges x < binning.num_bins x_edges ∧
          0 ≤ binning.bin_idx y_edges y ∧
          binning.bin_idx y_edges y < binning.num_bins y_edges
      · rw [binning.bin_step_true_pos x_edges y_edges _ (x, y) hg,
          binning.getCell_modifyCell, binning.getCell_zero_grid]
        rw [List.length_replicate, binning.zero_grid_row _ _ _ hjlt,
          List.length_replicate]
        dsimp only
        by_cases hbin : x_edges.getD i 0 ≤ x ∧ x < x_edges.getD (i + 1) 0 ∧
            y_edges.getD j 0 ≤ y ∧ y < y_edges.getD (j + 1) 0
        · have hxi : binning.bin_idx x_edges x = (i : ℤ) :=
            hxiff.mp ⟨hbin.1, hbin.2.1⟩
          have hyj : binning.bin_idx y_edges y = (j : ℤ) :=
            hyiff.mp ⟨hbin.2.2.1, hbin.2.2.2⟩
          rw [if_pos hbin, if_pos ⟨by omega, hjlt, by omega, hilt⟩]
          simp
        · have hnc : ¬ ((binning.bin_idx y_edges y).toNat = j ∧
              j < (binning.num_bins y_edges).toNat ∧
              (binning.bin_idx x_edges x).toNat = i ∧
              i < (binning.num_bins x_edges).toNat) := by
            intro ⟨hcy, _, hcx, _⟩
            apply hbin
            have hxi : binning.bin_idx x_edges x = (i : ℤ) := by omega
            have hyj : binning.bin_idx y_edges y = (j : ℤ) := by omega
            obtain ⟨hb1, hb2⟩ := hxiff.mpr hxi
            obtain ⟨hb3, hb4⟩ := hyiff.mpr hyj
            exact ⟨hb1, hb2, hb3, hb4⟩
          rw [if_neg hbin, if_neg hnc]
          simp
      · rw [binning.bin_step_true_neg x_edges y_edges _ (x, y) hg, binning.getCell_zero_grid]
        by_cases hbin : x_edges.getD i 0 ≤ x ∧ x < x_edges.getD (i + 1) 0 ∧
            y_edges.getD j 0 ≤ y ∧ y < y_edges.getD (j + 1) 0
        · exfalso
          apply hg
          have hxi := hxiff.mp ⟨hbin.1, hbin.2.1⟩
          have hyj := hyiff.mp ⟨hbin.2.2.1, hbin.2.2.2⟩
          refine ⟨by omega, by omega, by omega, by omega⟩
        · rw [if_neg hbin]
          simp
    | false =>
      rw [binning.bin_step_false_eq x_edges y_edges _ (x, y), binning.getCell_modifyCell,
        binning.getCell_zero_grid]
      rw [List.length_replicate, binning.zero_grid_row _ _ _ hjlt,
        List.length_replicate]
      dsimp only
      obtain ⟨hcx0, hcx1⟩ :=
        binning.clamp_bounds (x := binning.bin_idx x_edges x)
          (m := binning.num_bins x_edges - 1) (by omega)
      obtain ⟨hcy0, hcy1⟩ :=
        binning.clamp_bounds (x := binning.bin_idx y_edges y)
          (m := binning.num_bins y_edges - 1) (by omega)
      by_cases heq : (i : ℤ) = util.clamp (binning.bin_idx x_edges x) 0
            (binning.num_bins x_edges - 1) ∧
          (j : ℤ) = util.clamp (binning.bin_idx y_edges y) 0
            (binning.num_bins y_edges - 1)
      · rw [if_pos heq, if_pos ⟨by omega, hjlt, by omega, hilt⟩]
        simp
      · have hnc : ¬ ((util.clamp (binning.bin_idx y_edges y) 0
              (binning.num_bins y_edges - 1)).toNat = j ∧
              j < (binning.num_bins y_edges).toNat ∧
              (util.clamp (binning.bin_idx x_edges x) 0
                (binning.num_bins x_edges - 1)).toNat = i ∧
              i < (binning.num_bins x_edges).toNat) := by
          intro ⟨hcy, _, hcx, _⟩
          exact heq ⟨by omega, by omega⟩
        rw [if_neg heq, if_neg hnc]
        simp
  · intro hlow
    have h1 : ¬ (0 ≤ binning.bin_idx x_edges x) := by
      rw [hxlow]
      exact not_le.mpr hlow
    unfold util.clamp
    omega
  · intro hhigh
    have h1 : ¬ (binning.bin_idx x_edges x < binning.num_bins x_edges) := by
      rw [hxhigh]
      exact not_lt.mpr hhigh
    unfold util.clamp
    omega

set_option maxHeartbeats 400000

/-- Witness for C2 at a concrete input: edges `[0, 1, 2]` on both axes,
point `(1/2, 3/2)`, cell `(0, 1)`, `drop_outside = true`. -/
theorem bin_by_edges_cell_rule_witness :
    List.Sorted (· < ·) ([(0:ℚ), 1, 2]) ∧
    (0 + 1 < ([(0:ℚ), 1, 2] : List ℚ).length) ∧
    (1 + 1 < ([(0:ℚ), 1, 2] : List ℚ).length) ∧
    (binning.getCell
        (binning.bin_by_edges [((1:ℚ)/2, (3:ℚ)/2)] [0, 1, 2] [0, 1, 2] true)
        1 0 0 =
      if true then
        (if ([(0:ℚ), 1, 2] : List ℚ).getD 0 0 ≤ 1/2 ∧
            (1:ℚ)/2 < ([(0:ℚ), 1, 2] : List ℚ).getD (0 + 1) 0 ∧
            ([(0:ℚ), 1, 2] : List ℚ).getD 1 0 ≤ 3/2 ∧
            (3:ℚ)/2 < ([(0:ℚ), 1, 2] : List ℚ).getD (1 + 1) 0
         then 1 else 0)
      else
        (if ((0:ℕ) : ℤ) = util.clamp (binning.bin_idx [(0:ℚ), 1, 2] (1/2)) 0
              (binning.num_bins [(0:ℚ), 1, 2] - 1) ∧
            ((1:ℕ) : ℤ) = util.clamp (binning.bin_idx [(0:ℚ), 1, 2] (3/2)) 0
              (binning.num_bins [(0:ℚ), 1, 2] - 1)
         then 1 else 0)) :=
  ⟨by decide, by decide, by decide,
    ((bin_by_edges_cell_rule [(0:ℚ), 1, 2] [(0:ℚ), 1, 2] (1/2) (3/2) true
      (by decide) (by decide) 0 1 (by decide) (by decide)).1)⟩

theorem le_foldl_max {α : Type} [LinearOrder α] (v : α) (vs : List α) :
    ∀ x ∈ v :: vs, x ≤ vs.foldl Max.max v := by
  induction vs generalizing v with
  | nil =>
    intro x hx
    rcases List.mem_cons.mp hx with rfl | h
    · exact le_rfl
    · simp at h
  | cons b bs ih =>
    intro x hx
    simp only [List.foldl_cons]
    rcases List.mem_cons.mp hx with rfl | h
    · exact le_trans (le_max_left x b)
        (ih (Max.max x b) _ (List.mem_cons_self _ _))
    · rcases List.mem_cons.mp h with rfl | h'
      · exact le_trans (le_max_right v x)
          (ih (Max.max v x) _ (List.mem_cons_self _ _))
      · exact ih (Max.max v b) x (List.mem_cons_of_mem _ h')

theorem foldl_min_le {α : Type} [LinearOrder α] (v : α) (vs : List α) :
    ∀ x ∈ v :: vs, vs.foldl Min.min v ≤ x := by
  induction vs generalizing v with
  | nil =>
    intro x hx
    rcases List.mem_cons.mp hx with rfl | h
    · exact le_rfl
    · simp at h
  | cons b bs ih =>
    intro x hx
    simp only [List.foldl_cons]
    rcases List.mem_cons.mp hx with rfl | h
    · exact le_trans (ih (Min.min x b) _ (List.mem_cons_self _ _))
        (min_le_left x b)
    · rcases List.mem_cons.mp h with rfl | h'
      · exact le_trans (ih (Min.min v x) _ (List.mem_cons_self _ _))
          (min_le_right v x)
      · exact ih (Min.min v b) x (List.mem_cons_of_mem _ h')

/-- C9: `calc_value_range` returns the default range `[0, 1]` for an
empty value sequence; for a non-empty sequence it returns
`[min(values), max(values) + ulp(max)]`, whose top edge is strictly
greater than the largest data value since `math.ulp` is strictly
positive on every finite float. -/
theorem calc_value_range_spec (ulpf : ℚ → ℚ) (values : List ℚ)
    (hulp : ∀ q, 0 < ulpf q) :
    (values = [] → binning.calc_value_range ulpf values = ⟨0, 1⟩) ∧
    (values ≠ [] →
      (binning.calc_value_range ulpf values).min = binning.listMin values ∧
      (∀ x ∈ values,
        binning.listMin values ≤ x ∧ x ≤ binning.listMax values) ∧
      (binning.calc_value_range ulpf values).max =
        binning.listMax values + ulpf (binning.listMax values) ∧
      binning.listMax values <
        (binning.calc_value_range ulpf values).max) := by
  constructor
  · intro h
    subst h
    rfl
  · intro hne
    match values with
    | [] => exact absurd rfl hne
    | v :: vs =>
      refine ⟨rfl, ?_, rfl, ?_⟩
      · intro x hx
        exact ⟨foldl_min_le v vs x hx, le_foldl_max v vs x hx⟩
      · show binning.listMax (v :: vs) <
          binning.listMax (v :: vs) + ulpf (binning.listMax (v :: vs))
        have := hulp (binning.listMax (v :: vs))
        linarith

/-- Witness for C9: the empty list and the list `[3, 1, 2]` with a
constant positive ulp function. -/
theorem calc_value_range_spec_witness :
    (∀ q : ℚ, 0 < (fun _ : ℚ => (1:ℚ)/8) q) ∧
    (([(3:ℚ), 1, 2] : List ℚ) ≠ []) ∧
    ((([(3:ℚ), 1, 2] : List ℚ) = [] →
      binning.calc_value_range (fun _ : ℚ => (1:ℚ)/8) [3, 1, 2] = ⟨0, 1⟩) ∧
    (([(3:ℚ), 1, 2] : List ℚ) ≠ [] →
      (binning.calc_value_range (fun _ : ℚ => (1:ℚ)/8) [3, 1, 2]).min =
        binning.listMin [3, 1, 2] ∧
      (∀ x ∈ ([(3:ℚ), 1, 2] : List ℚ),
        binning.listMin [3, 1, 2] ≤ x ∧ x ≤ binning.listMax [3, 1, 2]) ∧
      (binning.calc_value_range (fun _ : ℚ => (1:ℚ)/8) [3, 1, 2]).max =
        binning.listMax [3, 1, 2] +
          (fun _ : ℚ => (1:ℚ)/8) (binning.listMax [3, 1, 2]) ∧
      binning.listMax [3, 1, 2] <
        (binning.calc_value_range (fun _ : ℚ => (1:ℚ)/8) [3, 1, 2]).max)) :=
  ⟨fun _ => by norm_num, by decide,
    calc_value_range_spec (fun _ : ℚ => (1:ℚ)/8) [3, 1, 2]
      (fun _ => by norm_num)⟩

/-- C10: `align_value_range` preserves the width of the range exactly:
both branches return a pair whose difference is the input width, so
alignment only shifts the range. -/
theorem align_value_range_width (vr : util.ValueRange) (alignment : ℚ)
    (hpos : 0 < alignment) :
    (binning.align_value_range vr alignment).max -
      (binning.align_value_range vr alignment).min = vr.max - vr.min := by
  unfold binning.align_value_range
  dsimp only
  split_ifs <;> dsimp only <;> ring

/-- Witness for C10 at `vr = [1/3, 7/3]`, alignment `1/2`. -/
theorem align_value_range_width_witness :
    (0 < (1:ℚ)/2) ∧
    ((binning.align_value_range ⟨1/3, 7/3⟩ (1/2)).max -
      (binning.align_value_range ⟨1/3, 7/3⟩ (1/2)).min =
        (7:ℚ)/3 - 1/3) :=
  ⟨by norm_num, align_value_range_width ⟨1/3, 7/3⟩ (1/2) (by norm_num)⟩

theorem int_log_eq_of_bounds {r : ℚ} (hr : 0 < r) {k : ℤ}
    (h1 : (10:ℚ) ^ k ≤ r) (h2 : r < (10:ℚ) ^ (k + 1)) :
    Int.log 10 r = k := by
  have ha := (Int.zpow_le_iff_le_log (by norm_num : 1 < 10) hr).mp
    (by exact_mod_cast h1)
  have hb := (Int.lt_zpow_iff_log_lt (by norm_num : 1 < 10) hr).mp
    (by exact_mod_cast h2)
  omega

theorem sfrexp10_coeff (d : ℚ) (hd1 : 1 ≤ d) (hd10 : d < 10) (k : ℤ) :
    axis.sfrexp10 (d * 10 ^ k) = (1, d / 10, k + 1) := by
  have h10k : (0:ℚ) < 10 ^ k := zpow_pos (by norm_num) k
  have hzne : ((10:ℚ) ^ k) ≠ 0 := ne_of_gt h10k
  have hpos : 0 < d * 10 ^ k := mul_pos (lt_of_lt_of_le one_pos hd1) h10k
  have hsucc : (10:ℚ) ^ (k + 1) = 10 ^ k * 10 := by
    rw [zpow_add_one₀ (by norm_num : (10:ℚ) ≠ 0)]
  have hlog : Int.log 10 (d * 10 ^ k) = k := by
    apply int_log_eq_of_bounds hpos
    · exact le_mul_of_one_le_left (le_of_lt h10k) hd1
    · rw [hsucc]
      calc d * 10 ^ k = 10 ^ k * d := by ring
        _ < 10 ^ k * 10 := by
          exact mul_lt_mul_of_pos_left hd10 h10k
  unfold axis.sfrexp10
  rw [hlog]
  have hfrac : d * 10 ^ k / 10 ^ (k + 1) = d / 10 := by
    rw [hsucc]
    field_simp
    ring
  dsimp only
  rw [hfrac]

theorem pyMaxNat_bound (l : List ℕ) (m : ℕ) (h : axis.pyMaxNat l = .ok m) :
    ∀ x ∈ l, x ≤ m := by
  match l with
  | [] => simp [axis.pyMaxNat] at h
  | x :: xs =>
    simp only [axis.pyMaxNat, Except.ok.injEq] at h
    subst h
    exact le_foldl_max x xs

theorem positions_to_labels_no_ticks (t : List ℚ) (fmt : ℚ → String) :
    axis.positions_to_labels t [] fmt = t.map (fun p => (p, fmt p)) := by
  simp [axis.positions_to_labels, axis.sanitize_decimals]

theorem find_fitting_subset_loop_width (tpb : ℚ) (fmt : ℚ → String) :
    ∀ (L : List (List ℚ)) (s : List ℚ),
      axis.find_fitting_subset_loop tpb true fmt L = .ok s →
      ∀ p ∈ s, ((fmt p).length : ℚ) ≤ tpb * 2 - 2 := by
  intro L
  induction L with
  | nil =>
    intro s h p hp
    simp only [axis.find_fitting_subset_loop, Except.ok.injEq] at h
    subst h
    simp at hp
  | cons t rest ih =>
    intro s h p hp
    simp only [axis.find_fitting_subset_loop] at h
    rw [if_neg (by simp)] at h
    cases hmax : axis.pyMaxNat ((axis.positions_to_labels t [] fmt).map
        (fun kv => kv.2.length)) with
    | error e =>
      rw [hmax] at h
      exact absurd h (by simp)
    | ok m =>
      rw [hmax] at h
      dsimp only at h
      by_cases hle : (m : ℚ) ≤ tpb * 2 - 2
      · rw [if_pos hle] at h
        have hst : t = s := Except.ok.inj h
        subst hst
        have hmem : (fmt p).length ∈
            (axis.positions_to_labels t [] fmt).map (fun kv => kv.2.length) := by
          rw [positions_to_labels_no_ticks]
          rw [List.map_map]
          exact List.mem_map_of_mem _ hp
        have := pyMaxNat_bound _ m hmax _ hmem
        calc ((fmt p).length : ℚ) ≤ (m : ℚ) := by exact_mod_cast this
          _ ≤ tpb * 2 - 2 := hle
      · rw [if_neg hle] at h
        exact ih s h p hp

/-- C4: whenever `find_fitting_subset` is called with
`accomodate_values = True` and returns a subset, every label printed for
that subset (`fmt` applied to its sanitized positions, exactly the
strings `positions_to_labels` later prints) has width at most
`ticks_per_bin * 2 - 2` character cells: the code only returns a subset
after checking that the maximum printed width fits. -/
theorem find_fitting_subset_fits (position_subsets : List (List ℚ))
    (ticks_per_bin : ℚ) (fmt : ℚ → String) (s : List ℚ)
    (hok : axis.find_fitting_subset position_subsets ticks_per_bin true fmt =
      .ok s) :
    ∀ p ∈ s, ((fmt p).length : ℚ) ≤ ticks_per_bin * 2 - 2 :=
  find_fitting_subset_loop_width ticks_per_bin fmt
    (axis.roundness_ordered position_subsets) s hok

theorem find_fitting_subset_concrete_eval :
    axis.find_fitting_subset [[(1:ℚ)]] 3 true (fun _ => "ab") = .ok [1] := by
  unfold axis.find_fitting_subset axis.roundness_ordered
  rw [show List.insertionSort
      (fun s t => axis.tz10 64 (t.headD 0) ≤ axis.tz10 64 (s.headD 0)) [[(1:ℚ)]] =
      [[(1:ℚ)]] from rfl]
  simp only [axis.find_fitting_subset_loop]
  rw [if_neg (by simp)]
  rw [show axis.pyMaxNat ((axis.positions_to_labels [(1:ℚ)] []
      (fun _ => "ab")).map (fun kv => kv.2.length)) = .ok 2 from rfl]
  dsimp only
  rw [if_pos (by norm_num)]

/-- Witness for C4: a single candidate subset `[1]`, `ticks_per_bin = 3`
(allowed width 4) and a constant two-character label. -/
theorem find_fitting_subset_fits_witness :
    (axis.find_fitting_subset [[(1:ℚ)]] 3 true (fun _ => "ab") = .ok [1]) ∧
    (∀ p ∈ ([(1:ℚ)] : List ℚ),
      (((fun _ : ℚ => "ab") p).length : ℚ) ≤ 3 * 2 - 2) :=
  ⟨find_fitting_subset_concrete_eval,
    find_fitting_subset_fits [[(1:ℚ)]] 3 (fun _ => "ab") [1]
      find_fitting_subset_concrete_eval⟩

theorem zpow_neg_one_ten : (10:ℚ) ^ (-1:ℤ) = 1/10 := by
  rw [zpow_neg_one]
  norm_num

theorem int_log_fifth : Int.log 10 ((1:ℚ)/5) = -1 := by
  apply int_log_eq_of_bounds (by norm_num)
  · rw [zpow_neg_one_ten]
    norm_num
  · rw [show (-1:ℤ) + 1 = 0 by ring, zpow_zero]
    norm_num

theorem pick_step_size_unit_eval_default :
    util.pick_step_size ⟨0, 1⟩ 5 1 = .ok (1/5, 1/5) := by
  simp only [util.pick_step_size]
  norm_num [max_def, int_log_fifth, zpow_neg_one_ten]

theorem pick_step_size_unit_eval_two :
    util.pick_step_size ⟨0, 1⟩ 5 2 = .ok (1/5, 1) := by
  simp only [util.pick_step_size]
  norm_num [max_def, int_log_fifth, zpow_neg_one_ten]

/-- C5 (amended): for a value range of width exactly `1.0` and a
desired-steps hint of `5`, `pick_step_size` returns step `0.2` (leading
digit 2).  Under the default `min_steps_per_label = 1` the label
interval equals the step (`0.2`, labelling every step); requesting
`min_steps_per_label = 2` triggers the leading-digit-2 rule and forces
every-5th labelling (interval `1.0`). -/
theorem pick_step_size_unit_width :
    util.pick_step_size ⟨0, 1⟩ 5 1 = .ok (1/5, 1/5) ∧
    util.pick_step_size ⟨0, 1⟩ 5 2 = .ok (1/5, 1) :=
  ⟨pick_step_size_unit_eval_default, pick_step_size_unit_eval_two⟩

/-- Counterexample to C5 as stated: under the default
`min_steps_per_label = 1`, the call for width `1.0` and hint `5` returns
label interval `0.2`, not the claimed every-5th interval `1.0`. -/
theorem pick_step_size_unit_width_default_not_every_fifth :
    util.pick_step_size ⟨0, 1⟩ 5 1 = .ok (1/5, 1/5) ∧
    util.pick_step_size ⟨0, 1⟩ 5 1 ≠ .ok (1/5, 1) := by
  refine ⟨pick_step_size_unit_eval_default, ?_⟩
  rw [pick_step_size_unit_eval_default]
  intro h
  have := Except.ok.inj h
  have h2 := congrArg Prod.snd this
  norm_num at h2

/-- C6 (amended): requesting a step size for an already-nice value whose
leading digit is 2 or 5 (in particular the spec's own example
`5 * 10 ^ k`) returns that same value unchanged.  (An exact power of ten
`1 * 10 ^ k` is instead bumped up to `2 * 10 ^ k`, because `sfrexp10`
decomposes it with mantissa `0.1`; see the counterexample theorem.) -/
theorem pick_step_size_nice_2_5_idempotent (k : ℤ) :
    axis.pick_step_size (2 * 10 ^ k) = .ok (2 * 10 ^ k) ∧
    axis.pick_step_size (5 * 10 ^ k) = .ok (5 * 10 ^ k) := by
  have h10k : (0:ℚ) < 10 ^ k := zpow_pos (by norm_num) k
  have hks : k + 1 - 1 = k := by ring
  constructor
  · unfold axis.pick_step_size
    rw [if_neg (not_le.mpr (mul_pos (by norm_num) h10k)),
      sfrexp10_coeff 2 (by norm_num) (by norm_num) k]
    dsimp only
    rw [if_pos (by norm_num), hks]
  · unfold axis.pick_step_size
    rw [if_neg (not_le.mpr (mul_pos (by norm_num) h10k)),
      sfrexp10_coeff 5 (by norm_num) (by norm_num) k]
    dsimp only
    rw [if_neg (by norm_num), if_pos (by norm_num), hks]

/-- Counterexample to C6 as stated: the nice value `1` (leading digit 1,
`1 * 10 ^ 0`) is not returned unchanged; `pick_step_size` decomposes it
as mantissa `0.1`, exponent `1` and rounds the mantissa up to `0.2`,
returning `2`. -/
theorem pick_step_size_power_of_ten_bumped :
    axis.pick_step_size 1 = .ok 2 ∧ axis.pick_step_size 1 ≠ .ok 1 := by
  have h1 : axis.pick_step_size 1 = .ok 2 := by
    have hs : axis.sfrexp10 1 = (1, 1/10, 1) := by
      have h0 := sfrexp10_coeff 1 le_rfl (by norm_num) 0
      norm_num at h0
      exact h0
    unfold axis.pick_step_size
    rw [if_neg (by norm_num), hs]
    dsimp only
    rw [if_pos (by norm_num)]
    norm_num
  refine ⟨h1, ?_⟩
  rw [h1]
  intro h
  have := Except.ok.inj h
  norm_num at this

/-- C8 (amended): for every non-positive input the decompose-based step
quantizer `axis.pick_step_size` raises before computing anything — but
the exception is a `ValueError`, which is not in Python's
`ArithmeticError` class. -/
theorem pick_step_size_nonpositive_raises (x : ℚ) (hx : x ≤ 0) :
    axis.pick_step_size x = .error .valueError ∧
    PyExc.isArithmeticErrorClass .valueError = false := by
  refine ⟨?_, rfl⟩
  unfold axis.pick_step_size
  rw [if_pos hx]

/-- Witness for C8 at the concrete non-positive input `0`. -/
theorem pick_step_size_nonpositive_raises_witness :
    ((0:ℚ) ≤ 0) ∧
    (axis.pick_step_size 0 = .error .valueError ∧
      PyExc.isArithmeticErrorClass .valueError = false) :=
  ⟨le_rfl, pick_step_size_nonpositive_raises 0 le_rfl⟩

/-- Counterexample to C8 as stated: at the non-positive input `0` the
code does signal, but the signalled exception is `ValueError`, which is
not an ArithmeticError-class condition. -/
theorem pick_step_size_nonpositive_not_arithmetic_error :
    axis.pick_step_size 0 = .error .valueError ∧
    PyExc.isArithmeticErrorClass .valueError = false := by
  constructor
  · unfold axis.pick_step_size
    rw [if_pos le_rfl]
  · rfl

namespace smoothing

theorem enumFrom_eq (k : ℤ) (xs : List ℚ) :
    enumFrom k xs =
      (List.range xs.length).map (fun (t : ℕ) => (k + (t:ℤ), xs.getD t 0)) := by
  induction xs generalizing k with
  | nil => rfl
  | cons x xs ih =>
    simp only [enumFrom, List.length_cons, List.range_succ_eq_map,
      List.map_cons, List.map_map]
    congr 1
    · simp
    · rw [ih (k + 1)]
      apply List.map_congr_left
      intro t _
      simp only [Function.comp_apply, List.getD_cons_succ]
      congr 1
      push_cast
      ring

theorem enumFrom_pySlice (l : List ℚ) (a b : ℤ) (ha : 0 ≤ a) (hab : a ≤ b)
    (hb : b ≤ (l.length : ℤ)) :
    enumFrom a (pySlice l a b) =
      (List.range (b - a).toNat).map
        (fun (t : ℕ) => (a + (t:ℤ), l.getD (a + (t:ℤ)).toNat 0)) := by
  have hsl : pySliceIdx l.length a = a.toNat := by
    unfold pySliceIdx
    rw [if_neg (not_lt.mpr ha)]
    exact min_eq_left (by omega)
  have hel : pySliceIdx l.length b = b.toNat := by
    unfold pySliceIdx
    rw [if_neg (not_lt.mpr (le_trans ha hab))]
    exact min_eq_left (by omega)
  have hslice : pySlice l a b = (l.drop a.toNat).take ((b - a).toNat) := by
    unfold pySlice
    dsimp only
    rw [hsl, hel]
    congr 1
    omega
  rw [hslice, enumFrom_eq]
  have hlen : ((l.drop a.toNat).take ((b - a).toNat)).length = (b - a).toNat := by
    rw [List.length_take, List.length_drop]
    omega
  rw [hlen]
  apply List.map_congr_left
  intro t ht
  have htlt : t < (b - a).toNat := List.mem_range.mp ht
  have hidx : a.toNat + t < l.length := by omega
  have h1 : ((l.drop a.toNat).take ((b - a).toNat)).getD t 0 =
      l.getD (a.toNat + t) 0 := by
    have ht2 : t < ((l.drop a.toNat).take ((b - a).toNat)).length := by
      rw [hlen]; exact htlt
    rw [List.getD_eq_getElem _ _ ht2, List.getD_eq_getElem _ _ hidx]
    rw [List.getElem_take, List.getElem_drop]
  have h2 : (a + (t:ℤ)).toNat = a.toNat + t := by omega
  rw [h1, h2]

theorem sum_range_indicator (a : ℤ) (n : ℕ) (i : ℤ) (F : ℤ → ℚ) :
    ((List.range n).map
      (fun (t : ℕ) => if a + (t:ℤ) = i then F (a + (t:ℤ)) else 0)).sum =
      if a ≤ i ∧ i < a + (n:ℤ) then F i else 0 := by
  induction n with
  | zero =>
    rw [if_neg (by omega)]
    simp
  | succ m ih =>
    rw [List.range_succ, List.map_append, List.sum_append, ih]
    simp only [List.map_cons, List.map_nil, List.sum_cons, List.sum_nil]
    by_cases h : a + (m:ℤ) = i
    · rw [if_neg (by omega), if_pos h, if_pos (by omega), h]
      push_cast
      ring
    · rw [if_neg h]
      by_cases h2 : a ≤ i ∧ i < a + (m:ℤ)
      · rw [if_pos h2, if_pos (by push_cast; omega)]
        ring
      · rw [if_neg h2, if_neg (by push_cast; omega)]
        ring

theorem addCell_spec (g : List (List ℚ)) (ny nx : ℕ) (r c : ℤ) (v : ℚ)
    (hgl : g.length = ny) (hgr : ∀ row ∈ g, row.length = nx)
    (hr0 : 0 ≤ r) (hrn : r < (ny:ℤ)) (hc0 : 0 ≤ c) (hcn : c < (nx:ℤ)) :
    (addCell g r c v).length = ny ∧
    (∀ row ∈ addCell g r c v, row.length = nx) ∧
    ∀ j i : ℕ, j < ny → i < nx →
      binning.getCell (addCell g r c v) j i 0 =
        binning.getCell g j i 0 +
          (if r = (j:ℤ) ∧ c = (i:ℤ) then v else 0) := by
  have hpy : pyIdx g.length r = r := by
    unfold pyIdx
    exact if_neg (not_lt.mpr hr0)
  refine ⟨?_, ?_, ?_⟩
  · unfold addCell
    rw [binning.setAt_length]
    exact hgl
  · intro row hrow
    unfold addCell at hrow
    rcases binning.mem_setAt hrow with h | ⟨b, hb, hab⟩
    · exact hgr row h
    · rw [hab, binning.setAt_length]
      exact hgr b hb
  · intro j i hj hi
    unfold addCell
    rw [hpy]
    unfold binning.getCell
    rw [binning.getD_setAt]
    by_cases hrj : r.toNat = j
    · have hjl : j < g.length := by omega
      rw [if_pos ⟨hrj, hjl⟩]
      have hrowmem : g.getD j [] ∈ g := by
        rw [List.getD_eq_getElem _ _ hjl]
        exact List.getElem_mem hjl
      have hrlen : (g.getD j []).length = nx := hgr _ hrowmem
      have hpc : pyIdx (g.getD j []).length c = c := by
        unfold pyIdx
        exact if_neg (not_lt.mpr hc0)
      rw [hpc, binning.getD_setAt]
      by_cases hci : c.toNat = i
      · rw [if_pos ⟨hci, by omega⟩, if_pos ⟨by omega, by omega⟩]
      · rw [if_neg (by
            intro hcon
            exact hci hcon.1),
          if_neg (by
            intro hcon
            apply hci
            omega)]
        simp
    · rw [if_neg (by
          intro hcon
          exact hrj hcon.1),
        if_neg (by
          intro hcon
          apply hrj
          omega)]
      simp

theorem foldl_addCell_spec (xi : ℤ) (contrib : ℤ × ℚ → ℚ) (ny nx : ℕ)
    (hxi0 : 0 ≤ xi) (hxin : xi < (nx:ℤ)) :
    ∀ (L : List (ℤ × ℚ)) (g : List (List ℚ)),
      g.length = ny → (∀ row ∈ g, row.length = nx) →
      (∀ e ∈ L, 0 ≤ e.1 ∧ e.1 < (ny:ℤ)) →
      (L.foldl (fun out e => addCell out e.1 xi (contrib e)) g).length = ny ∧
      (∀ row ∈ L.foldl (fun out e => addCell out e.1 xi (contrib e)) g,
        row.length = nx) ∧
      ∀ j i : ℕ, j < ny → i < nx →
        binning.getCell
            (L.foldl (fun out e => addCell out e.1 xi (contrib e)) g) j i 0 =
          binning.getCell g j i 0 +
            (L.map (fun e =>
              if e.1 = (j:ℤ) ∧ xi = (i:ℤ) then contrib e else 0)).sum := by
  intro L
  induction L with
  | nil =>
    intro g hgl hgr _
    exact ⟨hgl, hgr, fun j i _ _ => by simp⟩
  | cons e L ih =>
    intro g hgl hgr hL
    have he := hL e (List.mem_cons_self _ _)
    have hadd := addCell_spec g ny nx e.1 xi (contrib e) hgl hgr
      he.1 he.2 hxi0 hxin
    have hrest := ih (addCell g e.1 xi (contrib e)) hadd.1 hadd.2.1
      (fun e' he' => hL e' (List.mem_cons_of_mem _ he'))
    refine ⟨hrest.1, hrest.2.1, ?_⟩
    intro j i hj hi
    rw [List.foldl_cons, hrest.2.2 j i hj hi, hadd.2.2 j i hj hi]
    simp only [List.map_cons, List.sum_cons]
    ring

theorem foldl_outer_spec (Ly : List (ℤ × ℚ))
    (contribOf : (ℤ × ℚ) → (ℤ × ℚ) → ℚ) (ny nx : ℕ)
    (hLy : ∀ ye ∈ Ly, 0 ≤ ye.1 ∧ ye.1 < (ny:ℤ)) :
    ∀ (Lx : List (ℤ × ℚ)) (g : List (List ℚ)),
      g.length = ny → (∀ row ∈ g, row.length = nx) →
      (∀ xe ∈ Lx, 0 ≤ xe.1 ∧ xe.1 < (nx:ℤ)) →
      (Lx.foldl (fun out xe =>
        Ly.foldl (fun out ye => addCell out ye.1 xe.1 (contribOf xe ye)) out)
        g).length = ny ∧
      (∀ row ∈ Lx.foldl (fun out xe =>
        Ly.foldl (fun out ye => addCell out ye.1 xe.1 (contribOf xe ye)) out)
        g, row.length = nx) ∧
      ∀ j i : ℕ, j < ny → i < nx →
        binning.getCell
            (Lx.foldl (fun out xe =>
              Ly.foldl (fun out ye =>
                addCell out ye.1 xe.1 (contribOf xe ye)) out) g) j i 0 =
          binning.getCell g j i 0 +
            (Lx.map (fun xe =>
              (Ly.map (fun ye =>
                if ye.1 = (j:ℤ) ∧ xe.1 = (i:ℤ) then contribOf xe ye
                else 0)).sum)).sum := by
  intro Lx
  induction Lx with
  | nil =>
    intro g hgl hgr _
    exact ⟨hgl, hgr, fun j i _ _ => by simp⟩
  | cons xe Lx ih =>
    intro g hgl hgr hLx
    have hxe := hLx xe (List.mem_cons_self _ _)
    have hinner := foldl_addCell_spec xe.1 (contribOf xe) ny nx
      hxe.1 hxe.2 Ly g hgl hgr hLy
    have hrest := ih
      (Ly.foldl (fun out ye => addCell out ye.1 xe.1 (contribOf xe ye)) g)
      hinner.1 hinner.2.1
      (fun e' he' => hLx e' (List.mem_cons_of_mem _ he'))
    refine ⟨hrest.1, hrest.2.1, ?_⟩
    intro j i hj hi
    rw [List.foldl_cons, hrest.2.2 j i hj hi, hinner.2.2 j i hj hi]
    simp only [List.map_cons, List.sum_cons]
    ring

theorem double_range_indicator_sum (sx : ℤ) (n : ℕ) (sy : ℤ) (m : ℕ)
    (i j : ℤ) (K : ℤ → ℤ → ℚ) :
    ((List.range n).map (fun (t : ℕ) =>
      ((List.range m).map (fun (u : ℕ) =>
        if sy + (u:ℤ) = j ∧ sx + (t:ℤ) = i then K (sx + (t:ℤ)) (sy + (u:ℤ))
        else 0)).sum)).sum =
      if (sx ≤ i ∧ i < sx + (n:ℤ)) ∧ (sy ≤ j ∧ j < sy + (m:ℤ)) then K i j
      else 0 := by
  have hinner : ∀ (t : ℕ),
      ((List.range m).map (fun (u : ℕ) =>
        if sy + (u:ℤ) = j ∧ sx + (t:ℤ) = i then K (sx + (t:ℤ)) (sy + (u:ℤ))
        else 0)).sum =
      if (sy ≤ j ∧ j < sy + (m:ℤ)) ∧ sx + (t:ℤ) = i then K (sx + (t:ℤ)) j
      else 0 := by
    intro t
    have hc : ∀ u ∈ List.range m,
        (fun (u : ℕ) =>
          if sy + (u:ℤ) = j ∧ sx + (t:ℤ) = i then K (sx + (t:ℤ)) (sy + (u:ℤ))
          else 0) u =
        (fun (u : ℕ) =>
          if sy + (u:ℤ) = j then
            (fun (v : ℤ) =>
              if sx + (t:ℤ) = i then K (sx + (t:ℤ)) v else 0) (sy + (u:ℤ))
          else 0) u := by
      intro u _
      dsimp only
      by_cases h1 : sy + (u:ℤ) = j
      · by_cases h2 : sx + (t:ℤ) = i
        · rw [if_pos ⟨h1, h2⟩, if_pos h1, if_pos h2]
        · rw [if_neg (by tauto), if_pos h1, if_neg h2]
      · rw [if_neg (by tauto), if_neg h1]
    rw [List.map_congr_left hc,
      sum_range_indicator sy m j
        (fun (v : ℤ) => if sx + (t:ℤ) = i then K (sx + (t:ℤ)) v else 0)]
    by_cases hy : sy ≤ j ∧ j < sy + (m:ℤ)
    · rw [if_pos hy]
      by_cases h2 : sx + (t:ℤ) = i
      · rw [if_pos h2, if_pos ⟨hy, h2⟩]
      · rw [if_neg h2, if_neg (by tauto)]
    · rw [if_neg hy, if_neg (by tauto)]
  have hc2 : ∀ t ∈ List.range n,
      (fun (t : ℕ) =>
        ((List.range m).map (fun (u : ℕ) =>
          if sy + (u:ℤ) = j ∧ sx + (t:ℤ) = i then
            K (sx + (t:ℤ)) (sy + (u:ℤ)) else 0)).sum) t =
      (fun (t : ℕ) =>
        if sx + (t:ℤ) = i then
          (fun (v : ℤ) =>
            if sy ≤ j ∧ j < sy + (m:ℤ) then K v j else 0) (sx + (t:ℤ))
        else 0) t := by
    intro t _
    dsimp only
    rw [hinner t]
    by_cases h2 : sx + (t:ℤ) = i
    · by_cases hy : sy ≤ j ∧ j < sy + (m:ℤ)
      · rw [if_pos ⟨hy, h2⟩, if_pos h2, if_pos hy]
      · rw [if_neg (by tauto), if_pos h2, if_neg hy]
    · rw [if_neg (by tauto), if_neg h2]
  rw [List.map_congr_left hc2,
    sum_range_indicator sx n i
      (fun (v : ℤ) => if sy ≤ j ∧ j < sy + (m:ℤ) then K v j else 0)]
  by_cases hx : sx ≤ i ∧ i < sx + (n:ℤ)
  · rw [if_pos hx]
    by_cases hy : sy ≤ j ∧ j < sy + (m:ℤ)
    · rw [if_pos hy, if_pos ⟨hx, hy⟩]
    · rw [if_neg hy, if_neg (by tauto)]
  · rw [if_neg hx, if_neg (by tauto)]

theorem mem_mapRange_bounds (a : ℤ) (n : ℕ) (f : ℕ → ℚ) (N : ℤ)
    (h0 : 0 ≤ a) (hN : a + (n:ℤ) ≤ N) :
    ∀ e ∈ (List.range n).map (fun (t : ℕ) => (a + (t:ℤ), f t)),
      0 ≤ e.1 ∧ e.1 < N := by
  intro e he
  rcases List.mem_map.mp he with ⟨t, ht, rfl⟩
  have := List.mem_range.mp ht
  dsimp only
  omega

theorem fold_enum_spec (xc yc : List ℚ) (Kf : ℚ × ℚ → ℚ) (px py : ℚ)
    (sx ex sy ey : ℤ) (g : List (List ℚ))
    (hgl : g.length = yc.length)
    (hgr : ∀ row ∈ g, row.length = xc.length)
    (hx0 : 0 ≤ sx) (hx1 : sx ≤ ex) (hx2 : ex ≤ (xc.length : ℤ))
    (hy0 : 0 ≤ sy) (hy1 : sy ≤ ey) (hy2 : ey ≤ (yc.length : ℤ)) :
    ((enumFrom sx (pySlice xc sx ex)).foldl
      (fun out xe => (enumFrom sy (pySlice yc sy ey)).foldl
        (fun out ye => addCell out ye.1 xe.1 (Kf (px - xe.2, py - ye.2)))
        out) g).length = yc.length ∧
    (∀ row ∈ (enumFrom sx (pySlice xc sx ex)).foldl
      (fun out xe => (enumFrom sy (pySlice yc sy ey)).foldl
        (fun out ye => addCell out ye.1 xe.1 (Kf (px - xe.2, py - ye.2)))
        out) g, row.length = xc.length) ∧
    ∀ j i : ℕ, j < yc.length → i < xc.length →
      binning.getCell ((enumFrom sx (pySlice xc sx ex)).foldl
        (fun out xe => (enumFrom sy (pySlice yc sy ey)).foldl
          (fun out ye => addCell out ye.1 xe.1 (Kf (px - xe.2, py - ye.2)))
          out) g) j i 0 =
      binning.getCell g j i 0 +
        (if (sx ≤ (i:ℤ) ∧ (i:ℤ) < ex) ∧ (sy ≤ (j:ℤ) ∧ (j:ℤ) < ey) then
          Kf (px - xc.getD i 0, py - yc.getD j 0) else 0) := by
  rw [enumFrom_pySlice xc sx ex hx0 hx1 hx2,
    enumFrom_pySlice yc sy ey hy0 hy1 hy2]
  have hLxB := mem_mapRange_bounds sx ((ex - sx).toNat)
    (fun (t : ℕ) => xc.getD (sx + (t:ℤ)).toNat 0) (xc.length : ℤ) hx0
    (by omega)
  have hLyB := mem_mapRange_bounds sy ((ey - sy).toNat)
    (fun (t : ℕ) => yc.getD (sy + (t:ℤ)).toNat 0) (yc.length : ℤ) hy0
    (by omega)
  have houter := foldl_outer_spec
    ((List.range ((ey - sy).toNat)).map
      (fun (u : ℕ) => (sy + (u:ℤ), yc.getD (sy + (u:ℤ)).toNat 0)))
    (fun xe ye => Kf (px - xe.2, py - ye.2))
    yc.length xc.length hLyB
    ((List.range ((ex - sx).toNat)).map
      (fun (t : ℕ) => (sx + (t:ℤ), xc.getD (sx + (t:ℤ)).toNat 0)))
    g hgl hgr hLxB
  refine ⟨houter.1, houter.2.1, ?_⟩
  intro j i hj hi
  rw [houter.2.2 j i hj hi]
  congr 1
  rw [List.map_map]
  have hrw : ((List.range ((ex - sx).toNat)).map
      ((fun xe => (((List.range ((ey - sy).toNat)).map
        (fun (u : ℕ) => (sy + (u:ℤ), yc.getD (sy + (u:ℤ)).toNat 0))).map
        (fun ye => if ye.1 = (j:ℤ) ∧ xe.1 = (i:ℤ) then
          Kf (px - xe.2, py - ye.2) else 0)).sum) ∘
        (fun (t : ℕ) => (sx + (t:ℤ), xc.getD (sx + (t:ℤ)).toNat 0)))) =
      (List.range ((ex - sx).toNat)).map (fun (t : ℕ) =>
        ((List.range ((ey - sy).toNat)).map (fun (u : ℕ) =>
          if sy + (u:ℤ) = (j:ℤ) ∧ sx + (t:ℤ) = (i:ℤ) then
            (fun (a b : ℤ) =>
              Kf (px - xc.getD a.toNat 0, py - yc.getD b.toNat 0))
              (sx + (t:ℤ)) (sy + (u:ℤ))
          else 0)).sum) := by
    apply List.map_congr_left
    intro t _
    simp only [Function.comp_apply]
    rw [List.map_map]
    apply congrArg
    apply List.map_congr_left
    intro u _
    simp only [Function.comp_apply]
  rw [hrw, double_range_indicator_sum sx ((ex - sx).toNat) sy
    ((ey - sy).toNat) (i:ℤ) (j:ℤ)
    (fun (a b : ℤ) => Kf (px - xc.getD a.toNat 0, py - yc.getD b.toNat 0))]
  have hex : sx + (((ex - sx).toNat : ℕ) : ℤ) = ex := by omega
  have hey : sy + (((ey - sy).toNat : ℕ) : ℤ) = ey := by omega
  rw [hex, hey]
  simp only [Int.toNat_natCast]

theorem smooth_step_spec (kernel : Kernel) (xc yc : List ℚ) (p : ℚ × ℚ)
    (g : List (List ℚ))
    (hgl : g.length = yc.length)
    (hgr : ∀ row ∈ g, row.length = xc.length)
    (hdix : 0 ≤ width_di (func_width kernel).1 xc)
    (hdiy : 0 ≤ width_di (func_width kernel).2 yc)
    (hx0 : 0 ≤ ctr_index xc p.1 - width_di (func_width kernel).1 xc)
    (hx2 : ctr_index xc p.1 + width_di (func_width kernel).1 xc + 1 ≤
      (xc.length : ℤ))
    (hy0 : 0 ≤ ctr_index yc p.2 - width_di (func_width kernel).2 yc)
    (hy2 : ctr_index yc p.2 + width_di (func_width kernel).2 yc + 1 ≤
      (yc.length : ℤ)) :
    (smooth_step kernel xc yc g p).length = yc.length ∧
    (∀ row ∈ smooth_step kernel xc yc g p, row.length = xc.length) ∧
    ∀ j i : ℕ, j < yc.length → i < xc.length →
      binning.getCell (smooth_step kernel xc yc g p) j i 0 =
        binning.getCell g j i 0 +
          (if (ctr_index xc p.1 - width_di (func_width kernel).1 xc ≤ (i:ℤ) ∧
              (i:ℤ) < ctr_index xc p.1 + width_di (func_width kernel).1 xc +
                1) ∧
             (ctr_index yc p.2 - width_di (func_width kernel).2 yc ≤ (j:ℤ) ∧
              (j:ℤ) < ctr_index yc p.2 + width_di (func_width kernel).2 yc +
                1) then
            kernel.f (p.1 - xc.getD i 0, p.2 - yc.getD j 0) else 0) :=
  fold_enum_spec xc yc kernel.f p.1 p.2
    (ctr_index xc p.1 - width_di (func_width kernel).1 xc)
    (ctr_index xc p.1 + width_di (func_width kernel).1 xc + 1)
    (ctr_index yc p.2 - width_di (func_width kernel).2 yc)
    (ctr_index yc p.2 + width_di (func_width kernel).2 yc + 1)
    g hgl hgr hx0 (by omega) hx2 hy0 (by omega) hy2

theorem smooth_fold_spec (kernel : Kernel) (xc yc : List ℚ)
    (hdix : 0 ≤ width_di (func_width kernel).1 xc)
    (hdiy : 0 ≤ width_di (func_width kernel).2 yc) :
    ∀ (points : List (ℚ × ℚ)) (g : List (List ℚ)),
      g.length = yc.length →
      (∀ row ∈ g, row.length = xc.length) →
      (∀ p ∈ points,
        (0 ≤ ctr_index xc p.1 - width_di (func_width kernel).1 xc ∧
         ctr_index xc p.1 + width_di (func_width kernel).1 xc + 1 ≤
           (xc.length : ℤ)) ∧
        (0 ≤ ctr_index yc p.2 - width_di (func_width kernel).2 yc ∧
         ctr_index yc p.2 + width_di (func_width kernel).2 yc + 1 ≤
           (yc.length : ℤ))) →
      (points.foldl (smooth_step kernel xc yc) g).length = yc.length ∧
      (∀ row ∈ points.foldl (smooth_step kernel xc yc) g,
        row.length = xc.length) ∧
      ∀ j i : ℕ, j < yc.length → i < xc.length →
        binning.getCell (points.foldl (smooth_step kernel xc yc) g) j i 0 =
          binning.getCell g j i 0 +
            (points.map (fun p =>
              if (ctr_index xc p.1 - width_di (func_width kernel).1 xc ≤
                  (i:ℤ) ∧
                  (i:ℤ) < ctr_index xc p.1 +
                    width_di (func_width kernel).1 xc + 1) ∧
                 (ctr_index yc p.2 - width_di (func_width kernel).2 yc ≤
                  (j:ℤ) ∧
                  (j:ℤ) < ctr_index yc p.2 +
                    width_di (func_width kernel).2 yc + 1) then
                kernel.f (p.1 - xc.getD i 0, p.2 - yc.getD j 0)
              else 0)).sum := by
  intro points
  induction points with
  | nil =>
    intro g hgl hgr _
    exact ⟨hgl, hgr, fun j i _ _ => by simp⟩
  | cons p ps ih =>
    intro g hgl hgr hwin
    have hp := hwin p (List.mem_cons_self _ _)
    have hstep := smooth_step_spec kernel xc yc p g hgl hgr hdix hdiy
      hp.1.1 hp.1.2 hp.2.1 hp.2.2
    have hrest := ih (smooth_step kernel xc yc g p) hstep.1 hstep.2.1
      (fun q hq => hwin q (List.mem_cons_of_mem _ hq))
    refine ⟨hrest.1, hrest.2.1, ?_⟩
    intro j i hj hi
    rw [List.foldl_cons, hrest.2.2 j i hj hi, hstep.2.2 j i hj hi]
    simp only [List.map_cons, List.sum_cons]
    ring

theorem outside_window_far (c0 dx w x : ℚ) (i : ℤ)
    (hdx : 0 < dx) (hw : 0 ≤ w)
    (hout : ¬(pyRound ((x - c0)/dx) - (⌊w/dx⌋ + 1) ≤ i ∧
             i < pyRound ((x - c0)/dx) + (⌊w/dx⌋ + 1) + 1)) :
    w < |x - (c0 + (i:ℚ) * dx)| := by
  have hnear := pyRound_near ((x - c0)/dx)
  have habs1 : (x - c0)/dx - pyRound ((x - c0)/dx) ≥ -(1/2) := by
    have := (abs_le.mp hnear).1
    linarith
  have habs2 : (x - c0)/dx - pyRound ((x - c0)/dx) ≤ 1/2 :=
    (abs_le.mp hnear).2
  have hdiv : w/dx < (⌊w/dx⌋ : ℚ) + 1 := Int.lt_floor_add_one _
  have hwd : 0 ≤ w/dx := div_nonneg hw (le_of_lt hdx)
  have hx : x - (c0 + (i:ℚ) * dx) = ((x - c0)/dx - i) * dx := by
    field_simp
    ring
  rw [hx]
  rcases not_and_or.mp hout with h | h
  · push_neg at h
    have h2 : ((pyRound ((x - c0)/dx) : ℚ) - i) ≥ (⌊w/dx⌋ : ℚ) + 2 := by
      exact_mod_cast (by omega :
        pyRound ((x - c0)/dx) - i ≥ ⌊w/dx⌋ + 2)
    have h1 : (x - c0)/dx - i > w/dx := by linarith
    have h3 : w < ((x - c0)/dx - i) * dx := by
      have hm := mul_lt_mul_of_pos_right h1 hdx
      rw [div_mul_cancel₀ w (ne_of_gt hdx)] at hm
      exact hm
    have h4 : 0 < ((x - c0)/dx - i) * dx :=
      mul_pos (lt_of_le_of_lt hwd h1) hdx
    rw [abs_of_pos h4]
    exact h3
  · push_neg at h
    have h2 : ((i : ℚ) - pyRound ((x - c0)/dx)) ≥ (⌊w/dx⌋ : ℚ) + 2 := by
      exact_mod_cast (by omega :
        i - pyRound ((x - c0)/dx) ≥ ⌊w/dx⌋ + 2)
    have h1 : (i : ℚ) - (x - c0)/dx > w/dx := by linarith
    have h3 : w < ((i : ℚ) - (x - c0)/dx) * dx := by
      have hm := mul_lt_mul_of_pos_right h1 hdx
      rw [div_mul_cancel₀ w (ne_of_gt hdx)] at hm
      exact hm
    have h4 : 0 < ((i : ℚ) - (x - c0)/dx) * dx :=
      mul_pos (lt_of_le_of_lt hwd h1) hdx
    have h5 : ((x - c0)/dx - i) * dx = -(((i : ℚ) - (x - c0)/dx) * dx) := by
      ring
    rw [h5, abs_neg, abs_of_pos h4]
    exact h3

theorem getD_map_range {α : Type} (n : ℕ) (F : ℕ → α) (j : ℕ) (d : α)
    (hj : j < n) : ((List.range n).map F).getD j d = F j := by
  have hj2 : j < ((List.range n).map F).length := by simpa using hj
  rw [List.getD_eq_getElem _ _ hj2, List.getElem_map, List.getElem_range]

theorem naive_smooth_spec (points : List (ℚ × ℚ)) (kernel : Kernel)
    (xc yc : List ℚ) :
    (naive_smooth points kernel xc yc).length = yc.length ∧
    (∀ row ∈ naive_smooth points kernel xc yc, row.length = xc.length) ∧
    ∀ j i : ℕ, j < yc.length → i < xc.length →
      binning.getCell (naive_smooth points kernel xc yc) j i 0 =
        (points.map (fun p =>
          kernel.f (p.1 - xc.getD i 0, p.2 - yc.getD j 0))).sum := by
  refine ⟨by simp [naive_smooth], ?_, ?_⟩
  · intro row hrow
    unfold naive_smooth at hrow
    rcases List.mem_map.mp hrow with ⟨j, _, rfl⟩
    simp
  · intro j i hj hi
    unfold naive_smooth binning.getCell
    rw [getD_map_range yc.length _ j [] hj, getD_map_range xc.length _ i 0 hi]

theorem grid_ext (g h : List (List ℚ)) (ny nx : ℕ)
    (hgl : g.length = ny) (hgr : ∀ row ∈ g, row.length = nx)
    (hhl : h.length = ny) (hhr : ∀ row ∈ h, row.length = nx)
    (hc : ∀ j i : ℕ, j < ny → i < nx →
      binning.getCell g j i 0 = binning.getCell h j i 0) : g = h := by
  apply List.ext_getElem (by omega)
  intro j hj1 hj2
  apply List.ext_getElem
  · rw [hgr _ (List.getElem_mem hj1), hhr _ (List.getElem_mem hj2)]
  · intro i hi1 hi2
    have hjny : j < ny := by omega
    have hinx : i < nx := by
      rw [hgr _ (List.getElem_mem hj1)] at hi1
      exact hi1
    have hcell := hc j i hjny hinx
    unfold binning.getCell at hcell
    rw [List.getD_eq_getElem g [] hj1, List.getD_eq_getElem h [] hj2,
      List.getD_eq_getElem _ _ hi1, List.getD_eq_getElem _ _ hi2] at hcell
    exact hcell

theorem getCell_zero_gridQ (ny nx j i : ℕ) :
    binning.getCell (List.replicate ny (List.replicate nx (0:ℚ))) j i 0 =
      0 := by
  unfold binning.getCell
  simp only [List.getD_eq_getElem?_getD, List.getElem?_replicate]
  split_ifs <;> simp

end smoothing

/-- C3: for every point set, every kernel whose weight vanishes beyond
its declared effective widths (with non-negative declared widths), and
every evenly spaced center grid with at least 2 centers per axis and
positive spacing, such that each point's effective-radius index window
lies entirely inside the grid, `smooth_to_bins` returns exactly the grid
of the naive reference that accumulates
`kernel (x - x_center[i], y - y_center[j])` over every cell of the full
grid for every point: the bounded-radius optimization only skips cells
where the kernel is zero. -/
theorem smooth_to_bins_eq_naive (points : List (ℚ × ℚ))
    (kernel : smoothing.Kernel) (xc yc : List ℚ)
    (hx2 : 2 ≤ xc.length) (hy2 : 2 ≤ yc.length)
    (hdx : 0 < smoothing.delta xc) (hdy : 0 < smoothing.delta yc)
    (hkw : 0 ≤ (smoothing.func_width kernel).1)
    (hkh : 0 ≤ (smoothing.func_width kernel).2)
    (hxeven : ∀ i : ℕ, i < xc.length →
      xc.getD i 0 = smoothing.center0 xc + (i:ℚ) * smoothing.delta xc)
    (hyeven : ∀ j : ℕ, j < yc.length →
      yc.getD j 0 = smoothing.center0 yc + (j:ℚ) * smoothing.delta yc)
    (hzero : ∀ dxv dyv : ℚ,
      ((smoothing.func_width kernel).1 < |dxv| ∨
        (smoothing.func_width kernel).2 < |dyv|) →
      kernel.f (dxv, dyv) = 0)
    (hwin : ∀ p ∈ points,
      (0 ≤ smoothing.ctr_index xc p.1 -
          smoothing.width_di (smoothing.func_width kernel).1 xc ∧
        smoothing.ctr_index xc p.1 +
          smoothing.width_di (smoothing.func_width kernel).1 xc + 1 ≤
          (xc.length : ℤ)) ∧
      (0 ≤ smoothing.ctr_index yc p.2 -
          smoothing.width_di (smoothing.func_width kernel).2 yc ∧
        smoothing.ctr_index yc p.2 +
          smoothing.width_di (smoothing.func_width kernel).2 yc + 1 ≤
          (yc.length : ℤ))) :
    smoothing.smooth_to_bins points kernel xc yc =
      smoothing.naive_smooth points kernel xc yc := by
  have hdix : 0 ≤ smoothing.width_di (smoothing.func_width kernel).1 xc := by
    unfold smoothing.width_di
    have h1 : 0 ≤ (smoothing.func_width kernel).1 / smoothing.delta xc :=
      div_nonneg hkw (le_of_lt hdx)
    have h2 := Int.floor_nonneg.mpr h1
    omega
  have hdiy : 0 ≤ smoothing.width_di (smoothing.func_width kernel).2 yc := by
    unfold smoothing.width_di
    have h1 : 0 ≤ (smoothing.func_width kernel).2 / smoothing.delta yc :=
      div_nonneg hkh (le_of_lt hdy)
    have h2 := Int.floor_nonneg.mpr h1
    omega
  have hinitl : (List.replicate yc.length
      (List.replicate xc.length (0:ℚ))).length = yc.length := by simp
  have hinitr : ∀ row ∈ List.replicate yc.length
      (List.replicate xc.length (0:ℚ)), row.length = xc.length := by
    intro row hrow
    rw [List.eq_of_mem_replicate hrow]
    simp
  have hfold := smoothing.smooth_fold_spec kernel xc yc hdix hdiy points _
    hinitl hinitr hwin
  have hnaive := smoothing.naive_smooth_spec points kernel xc yc
  unfold smoothing.smooth_to_bins
  apply smoothing.grid_ext _ _ yc.length xc.length hfold.1 hfold.2.1
    hnaive.1 hnaive.2.1
  intro j i hj hi
  rw [hfold.2.2 j i hj hi, hnaive.2.2 j i hj hi,
    smoothing.getCell_zero_gridQ, zero_add]
  apply congrArg
  apply List.map_congr_left
  intro p _
  by_cases hcond : (smoothing.ctr_index xc p.1 -
      smoothing.width_di (smoothing.func_width kernel).1 xc ≤ (i:ℤ) ∧
      (i:ℤ) < smoothing.ctr_index xc p.1 +
        smoothing.width_di (smoothing.func_width kernel).1 xc + 1) ∧
      (smoothing.ctr_index yc p.2 -
        smoothing.width_di (smoothing.func_width kernel).2 yc ≤ (j:ℤ) ∧
      (j:ℤ) < smoothing.ctr_index yc p.2 +
        smoothing.width_di (smoothing.func_width kernel).2 yc + 1)
  · rw [if_pos hcond]
  · rw [if_neg hcond]
    rcases not_and_or.mp hcond with hxout | hyout
    · have hfar := smoothing.outside_window_far (smoothing.center0 xc)
        (smoothing.delta xc) (smoothing.func_width kernel).1 p.1 (i:ℤ)
        hdx hkw hxout
      rw [hxeven i hi]
      have hz := hzero (p.1 - (smoothing.center0 xc +
        (i:ℚ) * smoothing.delta xc)) (p.2 - yc.getD j 0)
        (Or.inl (by exact_mod_cast hfar))
      rw [hz]
    · have hfar := smoothing.outside_window_far (smoothing.center0 yc)
        (smoothing.delta yc) (smoothing.func_width kernel).2 p.2 (j:ℤ)
        hdy hkh hyout
      rw [hyeven j hj]
      have hz := hzero (p.1 - xc.getD i 0) (p.2 - (smoothing.center0 yc +
        (j:ℚ) * smoothing.delta yc))
        (Or.inr (by exact_mod_cast hfar))
      rw [hz]

/-- Witness for C3: the indicator kernel of the square `[-1/2, 1/2]²`
with declared widths `(1/2, 1/2)`, centers `[0, 1, 2]` on both axes, and
the single point `(1, 1)` whose radius-1 index window `[0, 3)` fills the
grid exactly. -/
theorem smooth_to_bins_eq_naive_witness :
    (2 ≤ ([(0:ℚ), 1, 2] : List ℚ).length) ∧
    (0 < smoothing.delta [(0:ℚ), 1, 2]) ∧
    (0 ≤ (smoothing.func_width (smoothing.Kernel.mk
      (fun d => if |d.1| ≤ 1/2 ∧ |d.2| ≤ 1/2 then 1 else 0)
      (1/2, 1/2))).1) ∧
    (∀ i : ℕ, i < ([(0:ℚ), 1, 2] : List ℚ).length →
      ([(0:ℚ), 1, 2] : List ℚ).getD i 0 =
        smoothing.center0 [(0:ℚ), 1, 2] +
          (i:ℚ) * smoothing.delta [(0:ℚ), 1, 2]) ∧
    (∀ dxv dyv : ℚ,
      ((smoothing.func_width (smoothing.Kernel.mk
          (fun d => if |d.1| ≤ 1/2 ∧ |d.2| ≤ 1/2 then 1 else 0)
          (1/2, 1/2))).1 < |dxv| ∨
        (smoothing.func_width (smoothing.Kernel.mk
          (fun d => if |d.1| ≤ 1/2 ∧ |d.2| ≤ 1/2 then 1 else 0)
          (1/2, 1/2))).2 < |dyv|) →
      (smoothing.Kernel.mk
        (fun d => if |d.1| ≤ 1/2 ∧ |d.2| ≤ 1/2 then 1 else 0)
        (1/2, 1/2)).f (dxv, dyv) = 0) ∧
    (∀ p ∈ ([((1:ℚ), (1:ℚ))] : List (ℚ × ℚ)),
      (0 ≤ smoothing.ctr_index [(0:ℚ), 1, 2] p.1 -
          smoothing.width_di (smoothing.func_width (smoothing.Kernel.mk
            (fun d => if |d.1| ≤ 1/2 ∧ |d.2| ≤ 1/2 then 1 else 0)
            (1/2, 1/2))).1 [(0:ℚ), 1, 2] ∧
        smoothing.ctr_index [(0:ℚ), 1, 2] p.1 +
          smoothing.width_di (smoothing.func_width (smoothing.Kernel.mk
            (fun d => if |d.1| ≤ 1/2 ∧ |d.2| ≤ 1/2 then 1 else 0)
            (1/2, 1/2))).1 [(0:ℚ), 1, 2] + 1 ≤
          (([(0:ℚ), 1, 2] : List ℚ).length : ℤ)) ∧
      (0 ≤ smoothing.ctr_index [(0:ℚ), 1, 2] p.2 -
          smoothing.width_di (smoothing.func_width (smoothing.Kernel.mk
            (fun d => if |d.1| ≤ 1/2 ∧ |d.2| ≤ 1/2 then 1 else 0)
            (1/2, 1/2))).2 [(0:ℚ), 1, 2] ∧
        smoothing.ctr_index [(0:ℚ), 1, 2] p.2 +
          smoothing.width_di (smoothing.func_width (smoothing.Kernel.mk
            (fun d => if |d.1| ≤ 1/2 ∧ |d.2| ≤ 1/2 then 1 else 0)
            (1/2, 1/2))).2 [(0:ℚ), 1, 2] + 1 ≤
          (([(0:ℚ), 1, 2] : List ℚ).length : ℤ))) ∧
    smoothing.smooth_to_bins [((1:ℚ), (1:ℚ))]
      (smoothing.Kernel.mk
        (fun d => if |d.1| ≤ 1/2 ∧ |d.2| ≤ 1/2 then 1 else 0)
        (1/2, 1/2)) [(0:ℚ), 1, 2] [(0:ℚ), 1, 2] =
    smoothing.naive_smooth [((1:ℚ), (1:ℚ))]
      (smoothing.Kernel.mk
        (fun d => if |d.1| ≤ 1/2 ∧ |d.2| ≤ 1/2 then 1 else 0)
        (1/2, 1/2)) [(0:ℚ), 1, 2] [(0:ℚ), 1, 2] := by
  have hlen : (2 ≤ ([(0:ℚ), 1, 2] : List ℚ).length) := by norm_num
  have hdelta : 0 < smoothing.delta [(0:ℚ), 1, 2] := by
    norm_num [smoothing.delta]
  have hw1 : (0:ℚ) ≤ 1/2 := by norm_num
  have heven : ∀ i : ℕ, i < ([(0:ℚ), 1, 2] : List ℚ).length →
      ([(0:ℚ), 1, 2] : List ℚ).getD i 0 =
        smoothing.center0 [(0:ℚ), 1, 2] +
          (i:ℚ) * smoothing.delta [(0:ℚ), 1, 2] := by
    intro i hi
    norm_num at hi
    interval_cases i <;> norm_num [smoothing.center0, smoothing.delta]
  have hzero : ∀ dxv dyv : ℚ, ((1:ℚ)/2 < |dxv| ∨ (1:ℚ)/2 < |dyv|) →
      (if |dxv| ≤ 1/2 ∧ |dyv| ≤ 1/2 then (1:ℚ) else 0) = 0 := by
    intro dxv dyv h
    rw [if_neg]
    intro hcon
    rcases h with h | h
    · linarith [hcon.1]
    · linarith [hcon.2]
  have hctr : smoothing.ctr_index [(0:ℚ), 1, 2] 1 = 1 := by
    unfold smoothing.ctr_index smoothing.center0 smoothing.delta pyRound
    norm_num
  have hdi : smoothing.width_di (1/2) [(0:ℚ), 1, 2] = 1 := by
    unfold smoothing.width_di smoothing.delta
    norm_num
  have hwin : ∀ p ∈ ([((1:ℚ), (1:ℚ))] : List (ℚ × ℚ)),
      (0 ≤ smoothing.ctr_index [(0:ℚ), 1, 2] p.1 -
          smoothing.width_di (1/2) [(0:ℚ), 1, 2] ∧
        smoothing.ctr_index [(0:ℚ), 1, 2] p.1 +
          smoothing.width_di (1/2) [(0:ℚ), 1, 2] + 1 ≤
          (([(0:ℚ), 1, 2] : List ℚ).length : ℤ)) ∧
      (0 ≤ smoothing.ctr_index [(0:ℚ), 1, 2] p.2 -
          smoothing.width_di (1/2) [(0:ℚ), 1, 2] ∧
        smoothing.ctr_index [(0:ℚ), 1, 2] p.2 +
          smoothing.width_di (1/2) [(0:ℚ), 1, 2] + 1 ≤
          (([(0:ℚ), 1, 2] : List ℚ).length : ℤ)) := by
    intro p hp
    rcases List.mem_singleton.mp hp with rfl
    rw [hctr, hdi]
    norm_num
  exact ⟨hlen, hdelta, hw1, heven, fun dxv dyv h => hzero dxv dyv h, hwin,
    smooth_to_bins_eq_naive [((1:ℚ), (1:ℚ))]
      (smoothing.Kernel.mk
        (fun d => if |d.1| ≤ 1/2 ∧ |d.2| ≤ 1/2 then 1 else 0)
        (1/2, 1/2)) [(0:ℚ), 1, 2] [(0:ℚ), 1, 2]
      hlen hlen hdelta hdelta hw1 hw1 heven heven
      (fun dxv dyv h => hzero dxv dyv h) hwin⟩

end Densitty
